import Mathlib

/-! go-file: a verification development for `main.go`.

The program is an HTTP file-sharing server with three handlers (`listFiles`,
`uploadFile`, `downloadFile`) over a storage directory that is partitioned by a
client-supplied PIN path segment.

The embedding has three layers.

* Path algebra: the Go library functions `filepath.Clean`, `filepath.Join` and
  `filepath.Base` (Unix flavour), over Go strings represented as `List Char`.  They are
  modelled from their documentation and checked against the tables of the Go tests.
* An explicit filesystem state: a finite map from absolute paths to nodes, with the
  library primitives the handlers call (`os.Stat`, `os.MkdirAll`, `os.ReadDir`,
  `SaveUploadedFile`, `http.ServeFile`).  The state has regular files and directories;
  there are no symbolic links and no permission bits, and requests are handled one
  after the other.  The primitives report the errors of the path itself as Linux does:
  `EINVAL` for a path with a NUL byte, `ENAMETOOLONG` for a path of `PATH_MAX` bytes or
  more and for a path element of more than `NAME_MAX` bytes.
* The three handlers, transcribed statement by statement from `main.go`, as
  state-passing functions returning the new filesystem state and the response.  The
  outcome of `c.FormFile` and the router parameters are arguments of the handlers.
-/

namespace GoFile

/-! ## Go strings and paths -/

/-- A Go string: paths, PINs and file names (a list of characters). -/
abbrev Str := List Char

/-- The path separator of the Unix flavour of `path/filepath`. -/
def Separator : Char := '/'

/-- The path element `.`. -/
def dot : Str := ['.']

/-- The path element `..`. -/
def dotdot : Str := ['.', '.']

/-- Cuts a string at every separator, keeping empty elements
(`strings.Split(path, "/")`): the result is never empty. -/
def splitSlash : Str → List Str
  | [] => [[]]
  | c :: cs =>
    if c = Separator then [] :: splitSlash cs
    else
      match splitSlash cs with
      | [] => [[c]]
      | h :: t => (c :: h) :: t

/-- Glues path elements with single separators (`strings.Join(elem, "/")`). -/
def joinSlash : List Str → Str
  | [] => []
  | [e] => e
  | e :: f :: es => e ++ Separator :: joinSlash (f :: es)

/-- Reports whether the path starts with a separator (`rooted` in `Clean`). -/
def isRooted : Str → Bool
  | [] => false
  | c :: _ => decide (c = Separator)

/-- One element of the scan of `filepath.Clean`, on the stack of elements written
so far (innermost element first).  Rule 1 and 2 of the documentation: empty and `.`
elements are dropped.  Rule 3: an inner `..` removes the non-`..` element before it.
Rule 4: a `..` that begins a rooted path is dropped; a `..` that cannot backtrack in
a relative path is kept. -/
def cleanStep (rooted : Bool) (out : List Str) (e : Str) : List Str :=
  if e = [] ∨ e = dot then out
  else if e = dotdot then
    match out with
    | [] => if rooted then [] else [dotdot]
    | top :: rest => if rooted = false ∧ top = dotdot then dotdot :: out else rest
  else e :: out

/-- The text of a cleaned path from its elements (outermost first): a rooted path
starts with the separator, and the empty relative path is `.`. -/
def renderPath (rooted : Bool) (elems : List Str) : Str :=
  if rooted then Separator :: joinSlash elems
  else if elems = [] then dot
  else joinSlash elems

/-- Go `filepath.Clean` (Unix): the shortest path name equivalent to `path` by purely
lexical processing.  The empty path cleans to `.`. -/
def Clean (path : Str) : Str :=
  if path = [] then dot
  else renderPath (isRooted path)
    ((splitSlash path).foldl (cleanStep (isRooted path)) []).reverse

/-- Go `filepath.Join` (Unix): leading empty elements are ignored, the rest is joined
with separators and cleaned; if every element is empty the result is empty. -/
def Join : List Str → Str
  | [] => []
  | e :: es => if e = [] then Join es else Clean (joinSlash (e :: es))

/-- Go `filepath.Base` (Unix): the last element of the path.  Trailing separators are
removed first; the empty path gives `.`; a path of separators only gives `/`. -/
def Base (path : Str) : Str :=
  if path = [] then dot
  else
    let stripped := (path.reverse.dropWhile (fun c => decide (c = Separator))).reverse
    let last := (stripped.reverse.takeWhile (fun c => !decide (c = Separator))).reverse
    if last = [] then [Separator] else last

/-! ## Filesystem state -/

/-- File content: a sequence of bytes. -/
abbrev Bytes := List (Fin 256)

/-- An absolute path as its list of elements, innermost element first: `[]` is the
root directory, `n :: d` is the entry named `n` of the directory `d`. -/
abbrev AbsPath := List Str

/-- A filesystem node: a regular file with its content, or a directory. -/
inductive Node where
  | file (content : Bytes)
  | dir
  deriving DecidableEq, Repr

/-- The error numbers the primitives below can report. -/
inductive Errno where
  | ENOENT
  | ENOTDIR
  | EISDIR
  | EEXIST
  | ENAMETOOLONG
  | EINVAL
  deriving DecidableEq, Repr

/-- The text of an error number, as `syscall.Errno.Error` prints it. -/
def Errno.text : Errno → Str
  | .ENOENT => "no such file or directory".data
  | .ENOTDIR => "not a directory".data
  | .EISDIR => "is a directory".data
  | .EEXIST => "file exists".data
  | .ENAMETOOLONG => "file name too long".data
  | .EINVAL => "invalid argument".data

/-- Go `*fs.PathError`: the failed operation, the path it was given and the cause. -/
structure PathError where
  Op : Str
  Path : Str
  Err : Errno
  deriving DecidableEq, Repr

/-- Go `(*PathError).Error`: `Op + " " + Path + ": " + Err.Error()`. -/
def PathError.Error (e : PathError) : Str :=
  e.Op ++ ' ' :: e.Path ++ ':' :: ' ' :: e.Err.text

deriving instance DecidableEq for Except

/-- Go `os.IsNotExist`: true for `ENOENT` only (not for `ENOTDIR`, `ENAMETOOLONG` or
`EINVAL`). -/
def IsNotExist (e : PathError) : Bool :=
  decide (e.Err = Errno.ENOENT)

/-- The filesystem state: the working directory of the process and a finite map from
absolute paths to nodes.  There are no symbolic links and no permission bits. -/
structure FS where
  cwd : AbsPath
  nodes : List (AbsPath × Node)
  deriving DecidableEq, Repr

/-- The node bound to an absolute path, if any. -/
def lookup (p : AbsPath) : List (AbsPath × Node) → Option Node
  | [] => none
  | (k, v) :: rest => if k = p then some v else lookup p rest

/-- The node at an absolute path of a filesystem state. -/
def FS.get (fs : FS) (p : AbsPath) : Option Node :=
  lookup p fs.nodes

/-- Binds `p` to `v`, replacing what was bound to `p`. -/
def bind (p : AbsPath) (v : Node) (m : List (AbsPath × Node)) : List (AbsPath × Node) :=
  (p, v) :: m.filter (fun e => decide (e.1 ≠ p))

/-- The parent of the bound path is a directory (the root has no parent). -/
def parentIsDir (m : List (AbsPath × Node)) (e : AbsPath × Node) : Bool :=
  match e.1 with
  | [] => true
  | _ :: parent => decide (lookup parent m = some Node.dir)

/-- The state is a tree: the root is a directory and the parent of every entry is a
directory. -/
def FS.WellFormed (fs : FS) : Prop :=
  fs.get [] = some Node.dir ∧ ∀ e ∈ fs.nodes, parentIsDir fs.nodes e = true

instance (fs : FS) : Decidable fs.WellFormed := by
  unfold FS.WellFormed; infer_instance

/-- The longest file name Linux filesystems store, in bytes (`NAME_MAX`). -/
def NAME_MAX : Nat := 255

/-- The size at which Linux refuses a path, in bytes with the final NUL (`PATH_MAX`). -/
def PATH_MAX : Nat := 4096

/-- The length of a Go string in bytes: the characters are encoded in UTF-8. -/
def byteLen : Str → Nat
  | [] => 0
  | c :: cs => c.utf8Size + byteLen cs

/-- The NUL byte. -/
def NUL : Char := Char.ofNat 0

/-- The error a path string raises by itself, before any lookup.  The empty path names
no file (`ENOENT`); Go refuses a path with a NUL byte (`EINVAL`, from
`syscall.BytePtrFromString`); the kernel refuses a path of `PATH_MAX` bytes or more
(`ENAMETOOLONG`). -/
def pathErrno (path : Str) : Option Errno :=
  if path = [] then some Errno.ENOENT
  else if NUL ∈ path then some Errno.EINVAL
  else if PATH_MAX ≤ byteLen path then some Errno.ENAMETOOLONG
  else none

/-- The error of the kernel's walk to an absolute path that is not bound, found from
the nearest bound ancestor: a regular file there gives `ENOTDIR`; a directory there
lacks the next element, which gives `ENAMETOOLONG` when the name of that element is
longer than `NAME_MAX` bytes and `ENOENT` otherwise. -/
def walkErrno (m : List (AbsPath × Node)) : AbsPath → Errno
  | [] => Errno.ENOENT
  | n :: parent =>
    match lookup parent m with
    | some Node.dir => if NAME_MAX < byteLen n then Errno.ENAMETOOLONG else Errno.ENOENT
    | some (Node.file _) => Errno.ENOTDIR
    | none => walkErrno m parent

/-- Path lookup of the kernel on an absolute path: the node, or the error of the walk
(`ENOTDIR` when it meets a regular file, `ENAMETOOLONG` when the missing element has
a name of more than `NAME_MAX` bytes, `ENOENT` when an element is missing). -/
def statAbs (m : List (AbsPath × Node)) (p : AbsPath) : Except Errno Node :=
  match lookup p m with
  | some v => .ok v
  | none => .error (walkErrno m p)

/-- One element of lexical path resolution against the current position: empty and
`.` elements stay, `..` moves to the parent (the parent of the root is the root). -/
def resolveStep (here : AbsPath) (e : Str) : AbsPath :=
  if e = [] ∨ e = dot then here
  else if e = dotdot then here.tail
  else e :: here

/-- The absolute path a path string denotes for a process whose working directory is
`cwd`.  The handlers only hand cleaned paths (results of `Join`) to the operating
system; on those, `..` occurs only in leading position, where lexical resolution is
what the kernel does. -/
def resolve (cwd : AbsPath) (path : Str) : AbsPath :=
  (splitSlash path).foldl resolveStep (if isRooted path then [] else cwd)

/-- Go `os.Stat`: the error of the path string, or the outcome of the walk. -/
def Stat (fs : FS) (path : Str) : Except PathError Node :=
  match pathErrno path with
  | some e => .error ⟨"stat".data, path, e⟩
  | none =>
    match statAbs fs.nodes (resolve fs.cwd path) with
    | .ok v => .ok v
    | .error e => .error ⟨"stat".data, path, e⟩

/-- The system call `mkdir` on an absolute path: the parent must be a directory, the
path must be free and the new name must not be longer than `NAME_MAX` bytes. -/
def mkdirAbs (m : List (AbsPath × Node)) : AbsPath → Except Errno (List (AbsPath × Node))
  | [] => .error Errno.EEXIST
  | n :: parent =>
    match lookup parent m with
    | none => .error (walkErrno m parent)
    | some (Node.file _) => .error Errno.ENOTDIR
    | some Node.dir =>
      match lookup (n :: parent) m with
      | some _ => .error Errno.EEXIST
      | none =>
        if NAME_MAX < byteLen n then .error Errno.ENAMETOOLONG
        else .ok (bind (n :: parent) Node.dir m)

/-- Go `os.MkdirAll` on an absolute path: the state it leaves and its error, if any.
Fast path: the path exists (success for a directory, `ENOTDIR` for a file).  Slow path:
make the parent, then `mkdir` the path.  The directories made before a failure stay. -/
def mkdirAllAbs (m : List (AbsPath × Node)) : AbsPath → List (AbsPath × Node) × Option Errno
  | [] =>
    match lookup [] m with
    | some Node.dir => (m, none)
    | some (Node.file _) => (m, some Errno.ENOTDIR)
    | none => (m, some Errno.EEXIST)
  | n :: parent =>
    match lookup (n :: parent) m with
    | some Node.dir => (m, none)
    | some (Node.file _) => (m, some Errno.ENOTDIR)
    | none =>
      match mkdirAllAbs m parent with
      | (m1, some e) => (m1, some e)
      | (m1, none) =>
        match mkdirAbs m1 (n :: parent) with
        | .ok m2 => (m2, none)
        | .error e => (m1, some e)

/-- Go `os.MkdirAll(path, 0755)`: the state it leaves and its error, if any.  The program
calls it only on a path that `os.Stat` has just reported missing (lines 55, 92 and 140),
and the string of such a path raises no error by itself unless it is empty.  For a path
string that raises an error the state is returned as it is, with that error. -/
def MkdirAll (fs : FS) (path : Str) : FS × Option Errno :=
  match pathErrno path with
  | some e => (fs, some e)
  | none =>
    ({ fs with nodes := (mkdirAllAbs fs.nodes (resolve fs.cwd path)).1 },
      (mkdirAllAbs fs.nodes (resolve fs.cwd path)).2)

/-- Go `os.FileInfo`, as far as the handlers read it. -/
structure OsFileInfo where
  Size : Nat
  deriving DecidableEq, Repr

/-- Go `os.DirEntry`: the name, the directory bit, and the outcome of `Info()`, which
reads the metadata of the entry when it is called and can fail. -/
structure DirEntry where
  Name : Str
  IsDir : Bool
  Info : Except Str OsFileInfo

/-- The size `os.FileInfo.Size` reports for a node. -/
def nodeSize : Node → Nat
  | Node.file content => content.length
  | Node.dir => 4096

/-- The directory entry for a node bound under the name `n`.  In this state model
(no concurrent removal, no permission bits) `Info()` succeeds. -/
def entryOf (n : Str) (v : Node) : DirEntry :=
  { Name := n, IsDir := decide (v = Node.dir), Info := .ok ⟨nodeSize v⟩ }

/-- The name under which the binding of `k` is an entry of the directory `d`. -/
def childName (d : AbsPath) (k : AbsPath) : Option Str :=
  match k with
  | [] => none
  | n :: parent => if parent = d then some n else none

/-- The entries of directory `d`, in the order of the map. -/
def entriesOf (m : List (AbsPath × Node)) (d : AbsPath) : List DirEntry :=
  m.filterMap (fun e => (childName d e.1).map (fun n => entryOf n e.2))

/-- Byte-wise order of Go strings, `a <= b`. -/
def strLE : Str → Str → Bool
  | [], _ => true
  | _ :: _, [] => false
  | a :: as, b :: bs =>
    if a.toNat < b.toNat then true
    else if b.toNat < a.toNat then false
    else strLE as bs

/-- The order `os.ReadDir` sorts by. -/
def entryLE (a b : DirEntry) : Prop := strLE a.Name b.Name = true

instance : DecidableRel entryLE := fun a b =>
  inferInstanceAs (Decidable (strLE a.Name b.Name = true))

/-- Go `os.ReadDir` on an absolute path: all entries of the directory, sorted by file
name. -/
def readDirAbs (m : List (AbsPath × Node)) (d : AbsPath) : Except Errno (List DirEntry) :=
  match statAbs m d with
  | .error e => .error e
  | .ok (Node.file _) => .error Errno.ENOTDIR
  | .ok Node.dir => .ok ((entriesOf m d).insertionSort entryLE)

/-- Go `os.ReadDir`: the error of the path string, or the outcome on the directory. -/
def ReadDir (fs : FS) (path : Str) : Except PathError (List DirEntry) :=
  match pathErrno path with
  | some e => .error ⟨"open".data, path, e⟩
  | none =>
    match readDirAbs fs.nodes (resolve fs.cwd path) with
    | .ok es => .ok es
    | .error e => .error ⟨"open".data, path, e⟩

/-- Go `os.Create` followed by `io.Copy` on an absolute path.  The kernel walks to the
parent, which must be a directory; a directory cannot be opened for writing; a file
that exists is truncated; a new file is created unless its name is longer than
`NAME_MAX` bytes; the file receives the content. -/
def writeFileAbs (m : List (AbsPath × Node)) (p : AbsPath) (content : Bytes) :
    Except Errno (List (AbsPath × Node)) :=
  match p with
  | [] => .error Errno.EISDIR
  | n :: parent =>
    match lookup parent m with
    | none => .error (walkErrno m parent)
    | some (Node.file _) => .error Errno.ENOTDIR
    | some Node.dir =>
      match lookup p m with
      | some Node.dir => .error Errno.EISDIR
      | some (Node.file _) => .ok (bind p (Node.file content) m)
      | none =>
        if NAME_MAX < byteLen n then .error Errno.ENAMETOOLONG
        else .ok (bind p (Node.file content) m)

/-- The multipart file header `c.FormFile` returns: the client-supplied file name and
the uploaded bytes. -/
structure FileHeader where
  Filename : Str
  content : Bytes
  deriving DecidableEq, Repr

/-- Gin `c.SaveUploadedFile(file, dst)`: `os.Create(dst)` and a copy of the uploaded
bytes.  (Newer gin versions first call `os.MkdirAll(filepath.Dir(dst))`; after the
handler has ensured the PIN directory this changes the error text only.) -/
def SaveUploadedFile (fs : FS) (file : FileHeader) (dst : Str) : Except PathError FS :=
  match pathErrno dst with
  | some e => .error ⟨"open".data, dst, e⟩
  | none =>
    match writeFileAbs fs.nodes (resolve fs.cwd dst) file.content with
    | .ok m => .ok { fs with nodes := m }
    | .error e => .error ⟨"open".data, dst, e⟩

/-! ## Responses -/

/-- The local type `FileInfo` of `listFiles`: one element of the `files` array. -/
structure FileInfo where
  Name : Str
  Size : Nat
  deriving DecidableEq, Repr

/-- A JSON value as `encoding/json` writes a `[]FileInfo`. -/
inductive JValue where
  | null
  | array (items : List FileInfo)
  deriving DecidableEq, Repr

/-- The JSON encoding of a Go slice (`encoding/json`): a nil slice encodes as `null`,
any other slice as an array.  A Go slice is `none` when nil. -/
def marshalSlice : Option (List FileInfo) → JValue
  | none => JValue.null
  | some items => JValue.array items

/-- Go `append` on a slice that may be nil. -/
def appendSlice (s : Option (List FileInfo)) (x : FileInfo) : Option (List FileInfo) :=
  match s with
  | none => some [x]
  | some items => some (items ++ [x])

/-- What a handler wrote as the response body: one of the three JSON objects of the
handlers, or what the file server wrote (the bytes of a file, a redirect, a plain text
error, the index page or listing of a directory). -/
inductive Body where
  | jsonError (error : Str)
  | jsonMessage (message : Str)
  | jsonFiles (files : JValue)
  | fileContent (content : Bytes)
  | redirect (location : Str)
  | text (msg : Str)
  | directory
  deriving DecidableEq, Repr

/-- An HTTP response: status code and body. -/
structure Response where
  status : Nat
  body : Body
  deriving DecidableEq, Repr

/-- Splits at `/` and `\` (`strings.FieldsFunc(v, isSlashRune)` keeps the non-empty
pieces; the empty ones do not matter for the test below). -/
def splitSlashRune : Str → List Str
  | [] => [[]]
  | c :: cs =>
    if c = '/' ∨ c = '\\' then [] :: splitSlashRune cs
    else
      match splitSlashRune cs with
      | [] => [[c]]
      | h :: t => (c :: h) :: t

/-- Go `net/http` `containsDotDot`: some element of the URL path is `..`. -/
def containsDotDot (v : Str) : Bool :=
  (splitSlashRune v).any (fun e => decide (e = dotdot))

/-- The request path that the route `/api/files/:pin/:filename` matched. -/
def downloadURL (pin filename : Str) : Str :=
  "/api/files/".data ++ pin ++ '/' :: filename

/-- Gin `c.File(name)`, which is `http.ServeFile(w, r, name)`, for a request without
range or conditional headers.  As documented for `ServeFile`: a request whose URL
path contains a `..` element is rejected; a request whose URL path ends in
`/index.html` is redirected to `./`; a file that cannot be opened is answered as
`toHTTPError` maps the error, `404 page not found` when the file or an element of its
path is missing or the path runs through a regular file, `500 Internal Server Error`
for any other error; a directory is redirected to its path with a final slash when the
URL path has none; a regular file is written out. -/
def ServeFile (fs : FS) (urlPath : Str) (name : Str) : Response :=
  if containsDotDot urlPath then ⟨400, Body.text "invalid URL path".data⟩
  else if "/index.html".data.isSuffixOf urlPath then ⟨301, Body.redirect "./".data⟩
  else
    match Stat fs name with
    | .error err =>
      if err.Err = Errno.ENOENT ∨ err.Err = Errno.ENOTDIR then
        ⟨404, Body.text "404 page not found".data⟩
      else ⟨500, Body.text "500 Internal Server Error".data⟩
    | .ok Node.dir =>
      if urlPath.getLast? = some '/' then ⟨200, Body.directory⟩
      else ⟨301, Body.redirect (Base urlPath ++ ['/'])⟩
    | .ok (Node.file content) => ⟨200, Body.fileContent content⟩

/-! ## The handlers of `main.go` -/

/-- Lines 90-93 of `listFiles` and 138-141 of `uploadFile`: `os.MkdirAll` is called when
`os.Stat` fails with an error of which `os.IsNotExist` holds, and for no other error;
the error of `os.MkdirAll` is discarded. -/
def ensureDir (fs : FS) (pinPath : Str) : FS :=
  match Stat fs pinPath with
  | .ok _ => fs
  | .error err =>
    if IsNotExist err then (MkdirAll fs pinPath).1
    else fs

/-- The loop of `listFiles` (lines 106-116): directories are skipped, an entry whose
`Info()` fails is logged and skipped, every other entry is appended.  The slice
starts nil (`var fileInfos []FileInfo`). -/
def collectFileInfos (fileInfos : Option (List FileInfo)) : List DirEntry →
    Option (List FileInfo)
  | [] => fileInfos
  | file :: files =>
    if file.IsDir then collectFileInfos fileInfos files
    else
      match file.Info with
      | .error _ => collectFileInfos fileInfos files
      | .ok info => collectFileInfos (appendSlice fileInfos ⟨file.Name, info.Size⟩) files

/-- Lines 95-119 of `listFiles`: the response for a given outcome of `os.ReadDir`. -/
def listResponse (readDir : Except PathError (List DirEntry)) : Response :=
  match readDir with
  | .error err => ⟨500, Body.jsonError err.Error⟩
  | .ok files => ⟨200, Body.jsonFiles (marshalSlice (collectFileInfos none files))⟩

/-- Handler `listFiles` (lines 84-120). -/
def listFiles (fs : FS) (storagePath pin : Str) : FS × Response :=
  let pinPath := Join [storagePath, pin]
  let fs1 := ensureDir fs pinPath
  (fs1, listResponse (ReadDir fs1 pinPath))

/-- The path `uploadFile` saves to (lines 135, 149, 150). -/
def uploadTarget (storagePath pin filename : Str) : Str :=
  Join [Join [storagePath, pin], Base filename]

/-- Handler `uploadFile` (lines 132-158).  `formFile` is the outcome of
`c.FormFile("file")`: an error when the request carries no readable multipart field
`file`. -/
def uploadFile (fs : FS) (storagePath pin : Str) (formFile : Except Str FileHeader) :
    FS × Response :=
  let pinPath := Join [storagePath, pin]
  let fs1 := ensureDir fs pinPath
  match formFile with
  | .error err => (fs1, ⟨400, Body.jsonError err⟩)
  | .ok file =>
    let filename := Base file.Filename
    match SaveUploadedFile fs1 file (Join [pinPath, filename]) with
    | .error err => (fs1, ⟨500, Body.jsonError err.Error⟩)
    | .ok fs2 =>
      (fs2, ⟨200, Body.jsonMessage
        ("File ".data ++ filename ++ " uploaded successfully".data)⟩)

/-- Handler `downloadFile` (lines 169-183). -/
def downloadFile (fs : FS) (storagePath pin filename : Str) : Response :=
  let filePath := Join [storagePath, pin, filename]
  match Stat fs filePath with
  | .error err =>
    if IsNotExist err then ⟨404, Body.jsonError "File not found".data⟩
    else ServeFile fs (downloadURL pin filename) filePath
  | .ok _ => ServeFile fs (downloadURL pin filename) filePath

/-! ## Notions the statements use -/

/-- The elements `Clean` keeps. -/
def CleanInv (rooted : Bool) (out : List Str) : Prop :=
  ∀ e ∈ out, e ≠ [] ∧ e ≠ dot ∧ Separator ∉ e ∧ (rooted = true → e ≠ dotdot)

/-- What the loop of `listFiles` appends for one directory entry, if anything. -/
def infoOf (file : DirEntry) : Option FileInfo :=
  if file.IsDir then none
  else
    match file.Info with
    | .error _ => none
    | .ok info => some ⟨file.Name, info.Size⟩

/-- A path segment as the router delivers it for `:pin` and `:filename`: non-empty and
without separator. -/
def isSegment (s : Str) : Prop := s ≠ [] ∧ Separator ∉ s

instance (s : Str) : Decidable (isSegment s) := by
  unfold isSegment; infer_instance

/-- A plain name: a segment that is neither `.` nor `..`. -/
def isPlainName (s : Str) : Prop := isSegment s ∧ s ≠ dot ∧ s ≠ dotdot

instance (s : Str) : Decidable (isPlainName s) := by
  unfold isPlainName; infer_instance

/-- The stack of `Clean` in normal form (innermost element first): plain names on top of
`..` elements, and no `..` element in a rooted path. -/
def StackNF (rooted : Bool) (out : List Str) : Prop :=
  ∃ (k : Nat) (pl : List Str),
    out = pl ++ List.replicate k dotdot ∧ (rooted = true → k = 0) ∧ ∀ e ∈ pl, isPlainName e

/-- The absolute path `p` is an entry of the directory `d`. -/
def isDirectChild (d p : AbsPath) : Prop := p ≠ [] ∧ p.tail = d

instance (d p : AbsPath) : Decidable (isDirectChild d p) := by
  unfold isDirectChild; infer_instance

/-- The test of the handlers for a missing path: `os.Stat` fails and `os.IsNotExist`
holds of the error. -/
def notExist (fs : FS) (path : Str) : Bool :=
  match Stat fs path with
  | .ok _ => false
  | .error err => IsNotExist err

/-- Lines 48-51 of `main`: the storage root is `STORAGE_PATH`, or `./storage` when the
variable is empty. -/
def storagePathOf (env : Str) : Str :=
  if env = [] then "./storage".data else env

/-- A host state before the server starts: the process runs in `/srv/app`, which is
empty. -/
def hostFS : FS :=
  { cwd := ["app".data, "srv".data],
    nodes := [([], Node.dir), (["srv".data], Node.dir), (["app".data, "srv".data], Node.dir)] }

/-- Lines 53-56 of `main` on `hostFS` with `STORAGE_PATH` unset: the storage root
`./storage` is created. -/
def startFS : FS :=
  ensureDir hostFS (storagePathOf [])

/-- The requests of the three routes. -/
inductive Request where
  | list (pin : Str)
  | upload (pin : Str) (formFile : Except Str FileHeader)
  | download (pin filename : Str)

/-- The state after a request. -/
def serve (storagePath : Str) (fs : FS) : Request → FS
  | Request.list pin => (listFiles fs storagePath pin).1
  | Request.upload pin formFile => (uploadFile fs storagePath pin formFile).1
  | Request.download _ _ => fs

/-- The request uploads a file of the given name under the given PIN. -/
def uploadsAs (pin filename : Str) : Request → Bool
  | Request.upload p (.ok file) => decide (p = pin ∧ Base file.Filename = filename)
  | _ => false

/-- Some read that `listFiles` performs fails: `os.ReadDir` itself, or `Info()` on an
entry that is not a directory. -/
def someReadFails : Except PathError (List DirEntry) → Bool
  | .error _ => true
  | .ok files => files.any (fun file => !file.IsDir &&
      match file.Info with
      | .error _ => true
      | .ok _ => false)

/-! ## Conformance of the library model -/

/-- The model of `filepath.Clean` on the cases of the table in the Go documentation and
tests: clean paths, the empty path, trailing and doubled separators, `.` and `..`
elements. -/
theorem Clean_conforms :
    Clean "abc".data = "abc".data ∧ Clean "abc/def".data = "abc/def".data ∧
    Clean ".".data = ".".data ∧ Clean "..".data = "..".data ∧
    Clean "../..".data = "../..".data ∧ Clean "../../abc".data = "../../abc".data ∧
    Clean "/abc".data = "/abc".data ∧ Clean "/".data = "/".data ∧
    Clean "".data = ".".data ∧
    Clean "abc/".data = "abc".data ∧ Clean "abc/def/".data = "abc/def".data ∧
    Clean "./".data = ".".data ∧ Clean "../".data = "..".data ∧
    Clean "../../".data = "../..".data ∧ Clean "/abc/".data = "/abc".data ∧
    Clean "abc//def//ghi".data = "abc/def/ghi".data ∧ Clean "//abc".data = "/abc".data ∧
    Clean "///abc".data = "/abc".data ∧ Clean "//abc//".data = "/abc".data ∧
    Clean "abc//".data = "abc".data ∧
    Clean "abc/./def".data = "abc/def".data ∧ Clean "/./abc/def".data = "/abc/def".data ∧
    Clean "abc/.".data = "abc".data ∧
    Clean "abc/def/ghi/../jkl".data = "abc/def/jkl".data ∧
    Clean "abc/def/../ghi/../jkl".data = "abc/jkl".data ∧
    Clean "abc/def/..".data = "abc".data ∧ Clean "abc/def/../..".data = ".".data ∧
    Clean "/abc/def/../..".data = "/".data ∧ Clean "abc/def/../../..".data = "..".data ∧
    Clean "/abc/def/../../..".data = "/".data ∧
    Clean "abc/def/../../../ghi/jkl/../../../mno".data = "../../mno".data ∧
    Clean "/../abc".data = "/abc".data ∧
    Clean "abc/./../def".data = "def".data ∧ Clean "abc//./../def".data = "def".data ∧
    Clean "abc/../../././../def".data = "../../def".data := by
  decide

/-- The model of `filepath.Base` on the cases of the Go tests. -/
theorem Base_conforms :
    Base "".data = ".".data ∧ Base ".".data = ".".data ∧ Base "/.".data = ".".data ∧
    Base "/".data = "/".data ∧ Base "////".data = "/".data ∧ Base "x/".data = "x".data ∧
    Base "abc".data = "abc".data ∧ Base "abc/def".data = "def".data ∧
    Base "a/b/.x".data = ".x".data ∧ Base "a/b/c.".data = "c.".data ∧
    Base "a/b/c.x".data = "c.x".data ∧ Base "..".data = "..".data ∧
    Base "a/../../etc/passwd".data = "passwd".data := by
  decide

/-- The model of `filepath.Join` on the cases of the Go tests. -/
theorem Join_conforms :
    Join [] = [] ∧ Join ["".data] = [] ∧ Join ["/".data] = "/".data ∧
    Join ["a".data] = "a".data ∧ Join ["a".data, "b".data] = "a/b".data ∧
    Join ["a".data, "".data] = "a".data ∧ Join ["".data, "b".data] = "b".data ∧
    Join ["/".data, "a".data] = "/a".data ∧ Join ["/".data, "a/b".data] = "/a/b".data ∧
    Join ["/".data, "".data] = "/".data ∧ Join ["/a".data, "b".data] = "/a/b".data ∧
    Join ["a/".data, "b".data] = "a/b".data ∧ Join ["a/".data, "".data] = "a".data ∧
    Join ["".data, "".data] = [] ∧ Join ["//".data, "a".data] = "/a".data := by
  decide

/-- The model of `containsDotDot` of `net/http` on path elements and on names that only
contain two dots. -/
theorem containsDotDot_conforms :
    containsDotDot "/api/files/../report.txt".data = true ∧
    containsDotDot "/api/files/123456/..".data = true ∧
    containsDotDot "/api/files/a\\..\\b/x".data = true ∧
    containsDotDot "/api/files/123456/a..b".data = false ∧
    containsDotDot "/api/files/123456/...".data = false ∧
    containsDotDot "/api/files/./report.txt".data = false := by
  decide

/-! ## Path algebra -/

theorem splitSlash_ne_nil (s : Str) : splitSlash s ≠ [] := by
  induction s with
  | nil => simp [splitSlash]
  | cons c cs ih =>
    simp only [splitSlash]
    split_ifs
    · simp
    · cases h : splitSlash cs <;> simp

theorem splitSlash_append (a b : Str) :
    splitSlash (a ++ Separator :: b) = splitSlash a ++ splitSlash b := by
  induction a with
  | nil => simp [splitSlash]
  | cons c cs ih =>
    simp only [List.cons_append, splitSlash]
    split_ifs with hc
    · simp [ih]
    · have ih2 : splitSlash (cs.append (Separator :: b)) = splitSlash cs ++ splitSlash b := ih
      rw [ih2]
      cases h : splitSlash cs with
      | nil => exact absurd h (splitSlash_ne_nil cs)
      | cons x xs => simp

theorem splitSlash_of_not_mem (s : Str) (h : Separator ∉ s) : splitSlash s = [s] := by
  induction s with
  | nil => simp [splitSlash]
  | cons c cs ih =>
    have hc : c ≠ Separator := fun e => h (by simp [e])
    have hcs : Separator ∉ cs := fun e => h (by simp [e])
    simp [splitSlash, hc, ih hcs]

theorem not_mem_of_mem_splitSlash (s e : Str) (h : e ∈ splitSlash s) : Separator ∉ e := by
  induction s generalizing e with
  | nil => simp [splitSlash] at h; simp [h]
  | cons c cs ih =>
    simp only [splitSlash] at h
    split_ifs at h with hc
    · rcases List.mem_cons.1 h with h1 | h1
      · simp [h1]
      · exact ih e h1
    · cases hs : splitSlash cs with
      | nil => exact absurd hs (splitSlash_ne_nil cs)
      | cons x xs =>
        rw [hs] at h
        rcases List.mem_cons.1 h with h1 | h1
        · have hx := ih x (by simp [hs])
          subst h1
          intro hm
          rcases List.mem_cons.1 hm with h2 | h2
          · exact hc h2.symm
          · exact hx h2
        · exact ih e (by simp [hs, h1])

theorem splitSlash_joinSlash (elems : List Str) (hne : elems ≠ [])
    (h : ∀ e ∈ elems, Separator ∉ e) : splitSlash (joinSlash elems) = elems := by
  induction elems with
  | nil => exact absurd rfl hne
  | cons e es ih =>
    cases es with
    | nil => simpa [joinSlash] using splitSlash_of_not_mem e (h e (by simp))
    | cons f fs =>
      simp only [joinSlash]
      rw [splitSlash_append, splitSlash_of_not_mem e (h e (by simp)),
        ih (by simp) (fun x hx => h x (List.mem_cons_of_mem _ hx))]
      rfl

theorem resolveStep_plain (p : AbsPath) (e : Str) (h1 : e ≠ []) (h2 : e ≠ dot)
    (h3 : e ≠ dotdot) : resolveStep p e = e :: p := by
  simp [resolveStep, h1, h2, h3]

theorem cleanStep_skip (rooted : Bool) (out : List Str) (e : Str) (h : e = [] ∨ e = dot) :
    cleanStep rooted out e = out := by
  simp [cleanStep, h]

theorem cleanStep_dotdot_nil (rooted : Bool) :
    cleanStep rooted [] dotdot = if rooted then [] else [dotdot] := by
  simp [cleanStep, dotdot, dot]

theorem cleanStep_dotdot_cons (rooted : Bool) (top : Str) (rest : List Str) :
    cleanStep rooted (top :: rest) dotdot =
      if rooted = false ∧ top = dotdot then dotdot :: top :: rest else rest := by
  simp [cleanStep, dotdot, dot]

theorem cleanStep_plain (rooted : Bool) (out : List Str) (e : Str) (h1 : e ≠ []) (h2 : e ≠ dot)
    (h3 : e ≠ dotdot) : cleanStep rooted out e = e :: out := by
  simp [cleanStep, h1, h2, h3]

theorem cleanInv_dotdot_false : CleanInv false [dotdot] := by
  intro x hx
  simp at hx
  subst hx
  simp [dotdot, dot, Separator]

theorem cleanInv_step (rooted : Bool) (out : List Str) (e : Str) (hinv : CleanInv rooted out)
    (he : Separator ∉ e) : CleanInv rooted (cleanStep rooted out e) := by
  by_cases h1 : e = [] ∨ e = dot
  · rw [cleanStep_skip rooted out e h1]; exact hinv
  · push_neg at h1
    by_cases h2 : e = dotdot
    · subst h2
      cases out with
      | nil =>
        rw [cleanStep_dotdot_nil]
        cases rooted with
        | true => simpa using hinv
        | false => simpa using cleanInv_dotdot_false
      | cons top rest =>
        rw [cleanStep_dotdot_cons]
        by_cases h3 : rooted = false ∧ top = dotdot
        · rw [if_pos h3]
          intro x hx
          rcases List.mem_cons.1 hx with hx | hx
          · subst hx
            refine ⟨h1.1, h1.2, he, ?_⟩
            intro hr; rw [h3.1] at hr; cases hr
          · exact hinv x hx
        · rw [if_neg h3]
          intro x hx
          exact hinv x (List.mem_cons_of_mem _ hx)
    · rw [cleanStep_plain rooted out e h1.1 h1.2 h2]
      intro x hx
      rcases List.mem_cons.1 hx with hx | hx
      · subst hx
        exact ⟨h1.1, h1.2, he, fun _ => h2⟩
      · exact hinv x hx

theorem resolveStep_skip (p : AbsPath) (e : Str) (h : e = [] ∨ e = dot) :
    resolveStep p e = p := by
  simp [resolveStep, h]

theorem resolveStep_dotdot (p : AbsPath) : resolveStep p dotdot = p.tail := by
  simp [resolveStep, dotdot, dot]

theorem cleanStep_resolve (rooted : Bool) (base : AbsPath) (out : List Str) (e : Str)
    (hinv : CleanInv rooted out) (hbase : rooted = true → base = []) :
    (cleanStep rooted out e).reverse.foldl resolveStep base =
      resolveStep (out.reverse.foldl resolveStep base) e := by
  by_cases h1 : e = [] ∨ e = dot
  · rw [cleanStep_skip rooted out e h1, resolveStep_skip _ e h1]
  · push_neg at h1
    by_cases h2 : e = dotdot
    · subst h2
      cases out with
      | nil =>
        rw [cleanStep_dotdot_nil]
        cases rooted with
        | true => simp [hbase rfl, resolveStep_dotdot]
        | false => simp
      | cons top rest =>
        rw [cleanStep_dotdot_cons]
        by_cases h3 : rooted = false ∧ top = dotdot
        · rw [if_pos h3]
          simp [List.foldl_append]
        · rw [if_neg h3]
          have ht := hinv top (by simp)
          have htop : top ≠ dotdot := by
            intro h
            cases rooted with
            | true => exact ht.2.2.2 rfl h
            | false => exact h3 ⟨rfl, h⟩
          simp only [List.reverse_cons, List.foldl_append, List.foldl_cons, List.foldl_nil]
          rw [resolveStep_plain _ top ht.1 ht.2.1 htop, resolveStep_dotdot]
          rfl
    · rw [cleanStep_plain rooted out e h1.1 h1.2 h2]
      simp [List.foldl_append]

theorem cleanFold_resolve (rooted : Bool) (base : AbsPath) (hbase : rooted = true → base = [])
    (elems : List Str) :
    ∀ out : List Str, CleanInv rooted out → (∀ e ∈ elems, Separator ∉ e) →
      CleanInv rooted (elems.foldl (cleanStep rooted) out) ∧
      (elems.foldl (cleanStep rooted) out).reverse.foldl resolveStep base =
        elems.foldl resolveStep (out.reverse.foldl resolveStep base) := by
  induction elems with
  | nil => intro out hinv _; exact ⟨hinv, rfl⟩
  | cons e es ih =>
    intro out hinv hsep
    have hstep := cleanInv_step rooted out e hinv (hsep e (by simp))
    have := ih (cleanStep rooted out e) hstep (fun x hx => hsep x (List.mem_cons_of_mem _ hx))
    refine ⟨this.1, ?_⟩
    simp only [List.foldl_cons]
    rw [this.2, cleanStep_resolve rooted base out e hinv hbase]

theorem isRooted_joinSlash (elems : List Str) (hne : elems ≠ [])
    (h : ∀ e ∈ elems, e ≠ [] ∧ Separator ∉ e) : isRooted (joinSlash elems) = false := by
  cases elems with
  | nil => exact absurd rfl hne
  | cons e es =>
    have he := h e (by simp)
    cases e with
    | nil => exact absurd rfl he.1
    | cons c cs =>
      have hc : c ≠ Separator := fun hh => he.2 (by simp [hh])
      cases es <;> simp [joinSlash, isRooted, hc]

theorem resolve_renderPath (cwd : AbsPath) (rooted : Bool) (elems : List Str)
    (h : ∀ e ∈ elems, e ≠ [] ∧ Separator ∉ e) :
    resolve cwd (renderPath rooted elems) =
      elems.foldl resolveStep (if rooted then [] else cwd) := by
  cases rooted with
  | true =>
    simp only [renderPath, resolve, isRooted, if_true, decide_True]
    by_cases hne : elems = []
    · subst hne; simp [joinSlash, splitSlash, resolveStep]
    · rw [show splitSlash (Separator :: joinSlash elems) = [] :: splitSlash (joinSlash elems) by
        simp [splitSlash]]
      rw [splitSlash_joinSlash elems hne (fun e he => (h e he).2)]
      simp [resolveStep]
  | false =>
    by_cases hne : elems = []
    · subst hne
      simp [renderPath, resolve, isRooted, dot, Separator, splitSlash, resolveStep]
    · simp only [renderPath, hne, if_false, resolve, Bool.false_eq_true]
      rw [isRooted_joinSlash elems hne h, splitSlash_joinSlash elems hne (fun e he => (h e he).2)]
      simp

/-- Cleaning a path does not change the absolute path it denotes. -/
theorem resolve_Clean (cwd : AbsPath) (path : Str) :
    resolve cwd (Clean path) = resolve cwd path := by
  unfold Clean
  split_ifs with hp
  · subst hp
    simp [resolve, isRooted, dot, Separator, splitSlash, resolveStep]
  · have hbase : isRooted path = true → (if isRooted path then [] else cwd) = [] := by
      intro h; simp [h]
    have key := cleanFold_resolve (isRooted path) (if isRooted path then [] else cwd) hbase
      (splitSlash path) [] (by intro e he; simp at he)
      (fun e he => not_mem_of_mem_splitSlash path e he)
    rw [resolve_renderPath]
    · rw [key.2]; simp [resolve]
    · intro e he
      have := key.1 e (List.mem_reverse.1 he)
      exact ⟨this.1, this.2.2.1⟩

theorem isRooted_append (a b : Str) (ha : a ≠ []) : isRooted (a ++ b) = isRooted a := by
  cases a with
  | nil => exact absurd rfl ha
  | cons c cs => rfl

theorem resolve_append (cwd : AbsPath) (a b : Str) (ha : a ≠ []) :
    resolve cwd (a ++ Separator :: b) = (splitSlash b).foldl resolveStep (resolve cwd a) := by
  simp only [resolve, isRooted_append a _ ha, splitSlash_append, List.foldl_append]

theorem resolve_nil (cwd : AbsPath) : resolve cwd [] = cwd := by
  simp [resolve, isRooted, splitSlash, resolveStep]

theorem resolve_elem (cwd : AbsPath) (e : Str) (hne : e ≠ []) (h : Separator ∉ e) :
    resolve cwd e = resolveStep cwd e := by
  have hr : isRooted e = false := by
    cases e with
    | nil => exact absurd rfl hne
    | cons c cs =>
      have hc : c ≠ Separator := fun hh => h (by simp [hh])
      simp [isRooted, hc]
  simp [resolve, hr, splitSlash_of_not_mem e h]

theorem Clean_ne_nil (path : Str) : Clean path ≠ [] := by
  unfold Clean
  split_ifs with hp
  · simp [dot]
  · unfold renderPath
    split_ifs with h1 h2
    · simp
    · simp [dot]
    · intro h
      cases hl : ((splitSlash path).foldl (cleanStep (isRooted path)) []).reverse with
      | nil => exact h2 hl
      | cons e es =>
        have key := cleanFold_resolve (isRooted path) [] (fun _ => rfl)
          (splitSlash path) [] (by intro e he; simp at he)
          (fun e he => not_mem_of_mem_splitSlash path e he)
        have he := key.1 e (List.mem_reverse.1 (by rw [hl]; simp))
        rw [hl] at h
        cases es with
        | nil => simp [joinSlash] at h; exact he.1 h
        | cons f fs => simp [joinSlash] at h

/-- The absolute path of `Join [a, b]`, for a path element `b`. -/
theorem resolve_Join2 (cwd : AbsPath) (a b : Str) (hb : b ≠ []) (hs : Separator ∉ b) :
    resolve cwd (Join [a, b]) = resolveStep (resolve cwd a) b := by
  by_cases ha : a = []
  · subst ha
    simp only [Join, if_true, hb, if_false, joinSlash]
    rw [resolve_Clean, resolve_nil, resolve_elem cwd b hb hs]
  · simp only [Join, ha, if_false, joinSlash]
    rw [resolve_Clean, resolve_append cwd a b ha, splitSlash_of_not_mem b hs]
    rfl

/-- The absolute path of `Join [a, b]` for a non-empty `a` and any `b`. -/
theorem resolve_Join2_gen (cwd : AbsPath) (a b : Str) (ha : a ≠ []) :
    resolve cwd (Join [a, b]) = (splitSlash b).foldl resolveStep (resolve cwd a) := by
  simp only [Join, ha, if_false, joinSlash]
  rw [resolve_Clean, resolve_append cwd a b ha]

/-- The absolute path of `Join [a, b, c]`, for path elements `b` and `c`. -/
theorem resolve_Join3 (cwd : AbsPath) (a b c : Str) (hb : b ≠ []) (hs : Separator ∉ b)
    (hc : Separator ∉ c) :
    resolve cwd (Join [a, b, c]) = resolveStep (resolveStep (resolve cwd a) b) c := by
  by_cases ha : a = []
  · subst ha
    simp only [Join, if_true, hb, if_false, joinSlash]
    rw [resolve_Clean, resolve_append cwd b c hb, splitSlash_of_not_mem c hc, resolve_nil,
      resolve_elem cwd b hb hs]
    rfl
  · simp only [Join, ha, if_false, joinSlash]
    rw [resolve_Clean, resolve_append cwd a _ ha, splitSlash_append,
      splitSlash_of_not_mem b hs, splitSlash_of_not_mem c hc]
    rfl

/-- A `Join` with a non-empty element is not the empty path. -/
theorem Join_ne_nil (elems : List Str) (h : ∃ e ∈ elems, e ≠ []) : Join elems ≠ [] := by
  induction elems with
  | nil => obtain ⟨e, he, _⟩ := h; simp at he
  | cons x xs ih =>
    simp only [Join]
    split_ifs with hx
    · apply ih
      obtain ⟨e, he, hne⟩ := h
      rcases List.mem_cons.1 he with h1 | h1
      · subst h1; exact absurd hx hne
      · exact ⟨e, h1, hne⟩
    · exact Clean_ne_nil _

theorem Join2_ne_nil (a b : Str) (hb : b ≠ []) : Join [a, b] ≠ [] :=
  Join_ne_nil _ ⟨b, by simp, hb⟩

/-! ## Cleaned paths as strings -/

theorem stackNF_nil (rooted : Bool) : StackNF rooted [] :=
  ⟨0, [], rfl, fun _ => rfl, by simp⟩

theorem stackNF_step (rooted : Bool) (out : List Str) (e : Str) (h : StackNF rooted out)
    (he : Separator ∉ e) : StackNF rooted (cleanStep rooted out e) := by
  obtain ⟨k, pl, hout, hk, hpl⟩ := h
  by_cases h1 : e = [] ∨ e = dot
  · rw [cleanStep_skip rooted out e h1]; exact ⟨k, pl, hout, hk, hpl⟩
  · push_neg at h1
    by_cases h2 : e = dotdot
    · subst h2
      cases pl with
      | cons top rest =>
        have htop := hpl top (by simp)
        rw [hout, List.cons_append, cleanStep_dotdot_cons,
          if_neg (fun hh => htop.2.2 hh.2)]
        exact ⟨k, rest, rfl, hk, fun x hx => hpl x (List.mem_cons_of_mem _ hx)⟩
      | nil =>
        rw [List.nil_append] at hout
        cases k with
        | zero =>
          rw [hout, List.replicate_zero, cleanStep_dotdot_nil]
          cases rooted with
          | true => exact stackNF_nil true
          | false => exact ⟨1, [], rfl, (fun hh => by cases hh), by simp⟩
        | succ j =>
          have hr : rooted = false := by
            cases rooted with
            | false => rfl
            | true => have := hk rfl; omega
          rw [hout, List.replicate_succ, cleanStep_dotdot_cons, if_pos ⟨hr, rfl⟩]
          exact ⟨j + 2, [], rfl, (fun hh => by rw [hr] at hh; cases hh), by simp⟩
    · rw [cleanStep_plain rooted out e h1.1 h1.2 h2, hout]
      refine ⟨k, e :: pl, rfl, hk, ?_⟩
      intro x hx
      rcases List.mem_cons.1 hx with hx | hx
      · subst hx; exact ⟨⟨h1.1, he⟩, h1.2, h2⟩
      · exact hpl x hx

theorem stackNF_fold (rooted : Bool) (elems : List Str) :
    ∀ out : List Str, StackNF rooted out → (∀ e ∈ elems, Separator ∉ e) →
      StackNF rooted (elems.foldl (cleanStep rooted) out) := by
  induction elems with
  | nil => intro out h _; exact h
  | cons e es ih =>
    intro out h hs
    exact ih _ (stackNF_step rooted out e h (hs e (by simp)))
      (fun x hx => hs x (List.mem_cons_of_mem _ hx))

/-- The stack `Clean` ends with on a path is in normal form. -/
theorem stackNF_Clean (path : Str) :
    StackNF (isRooted path) ((splitSlash path).foldl (cleanStep (isRooted path)) []) :=
  stackNF_fold _ _ [] (stackNF_nil _) (fun e he => not_mem_of_mem_splitSlash path e he)

theorem foldl_cleanStep_plain (rooted : Bool) (l : List Str) (h : ∀ e ∈ l, isPlainName e) :
    ∀ acc : List Str, l.foldl (cleanStep rooted) acc = l.reverse ++ acc := by
  induction l with
  | nil => intro acc; rfl
  | cons e es ih =>
    intro acc
    have he := h e (by simp)
    simp only [List.foldl_cons, List.reverse_cons, List.append_assoc, List.singleton_append]
    rw [cleanStep_plain rooted acc e he.1.1 he.2.1 he.2.2,
      ih (fun x hx => h x (List.mem_cons_of_mem _ hx))]

theorem foldl_cleanStep_dotdots (k : Nat) :
    ∀ j : Nat, (List.replicate k dotdot).foldl (cleanStep false) (List.replicate j dotdot) =
      List.replicate (j + k) dotdot := by
  induction k with
  | zero => intro j; rfl
  | succ k ih =>
    intro j
    simp only [List.replicate_succ, List.foldl_cons]
    have hstep : cleanStep false (List.replicate j dotdot) dotdot =
        List.replicate (j + 1) dotdot := by
      cases j with
      | zero => simp [cleanStep_dotdot_nil]
      | succ i =>
        rw [List.replicate_succ, cleanStep_dotdot_cons, if_pos ⟨rfl, rfl⟩]
        rfl
    rw [hstep, ih (j + 1)]
    congr 1
    omega

/-- Scanning the elements of a stack in normal form rebuilds that stack. -/
theorem cleanFold_of_NF (rooted : Bool) (st : List Str) (h : StackNF rooted st) :
    st.reverse.foldl (cleanStep rooted) [] = st := by
  obtain ⟨k, pl, hst, hk, hpl⟩ := h
  subst hst
  rw [List.reverse_append, List.reverse_replicate, List.foldl_append]
  have hdd : (List.replicate k dotdot).foldl (cleanStep rooted) [] = List.replicate k dotdot := by
    cases rooted with
    | true => rw [hk rfl]; rfl
    | false =>
      have := foldl_cleanStep_dotdots k 0
      simpa using this
  rw [hdd, foldl_cleanStep_plain rooted pl.reverse
    (fun e he => hpl e (List.mem_reverse.1 he)), List.reverse_reverse]

theorem stackNF_elem (rooted : Bool) (st : List Str) (h : StackNF rooted st) :
    ∀ e ∈ st, e ≠ [] ∧ Separator ∉ e := by
  obtain ⟨k, pl, hst, _, hpl⟩ := h
  intro e he
  rw [hst] at he
  rcases List.mem_append.1 he with h1 | h1
  · exact (hpl e h1).1
  · rw [List.eq_of_mem_replicate h1]
    simp [dotdot, Separator]

/-- The text of a stack in normal form cleans to that stack: `Clean` is idempotent on the
level of elements. -/
theorem clean_render (rooted : Bool) (st : List Str) (h : StackNF rooted st) :
    isRooted (renderPath rooted st.reverse) = rooted ∧
    (splitSlash (renderPath rooted st.reverse)).foldl (cleanStep rooted) [] = st := by
  have hel : ∀ e ∈ st.reverse, e ≠ [] ∧ Separator ∉ e :=
    fun e he => stackNF_elem rooted st h e (List.mem_reverse.1 he)
  cases rooted with
  | true =>
    simp only [renderPath, if_true]
    refine ⟨by simp [isRooted], ?_⟩
    rw [show splitSlash (Separator :: joinSlash st.reverse) =
      [] :: splitSlash (joinSlash st.reverse) by simp [splitSlash]]
    by_cases hne : st.reverse = []
    · have : st = [] := by simpa using hne
      subst this
      simp [joinSlash, splitSlash, cleanStep]
    · rw [splitSlash_joinSlash _ hne (fun e he => (hel e he).2)]
      simp only [List.foldl_cons]
      rw [cleanStep_skip true [] [] (Or.inl rfl)]
      exact cleanFold_of_NF true st h
  | false =>
    by_cases hne : st.reverse = []
    · have : st = [] := by simpa using hne
      subst this
      simp [renderPath, isRooted, dot, Separator, splitSlash, cleanStep]
    · simp only [renderPath, hne, if_false, Bool.false_eq_true]
      refine ⟨isRooted_joinSlash _ hne hel, ?_⟩
      rw [splitSlash_joinSlash _ hne (fun e he => (hel e he).2)]
      exact cleanFold_of_NF false st h

theorem isRooted_Clean (path : Str) : isRooted (Clean path) = isRooted path := by
  unfold Clean
  split_ifs with hp
  · subst hp; rfl
  · exact (clean_render _ _ (stackNF_Clean path)).1

theorem cleanFold_Clean (path : Str) :
    (splitSlash (Clean path)).foldl (cleanStep (isRooted path)) [] =
      (splitSlash path).foldl (cleanStep (isRooted path)) [] := by
  unfold Clean
  split_ifs with hp
  · subst hp
    simp [isRooted, dot, Separator, splitSlash, cleanStep]
  · exact (clean_render _ _ (stackNF_Clean path)).2

theorem Clean_append (a b : Str) (ha : a ≠ []) :
    Clean (a ++ Separator :: b) =
      renderPath (isRooted a)
        ((splitSlash b).foldl (cleanStep (isRooted a))
          ((splitSlash a).foldl (cleanStep (isRooted a)) [])).reverse := by
  have hne : a ++ Separator :: b ≠ [] := by simp
  unfold Clean
  rw [if_neg hne, isRooted_append a _ ha, splitSlash_append, List.foldl_append]

/-- Cleaning the first part of a path first does not change the cleaned path. -/
theorem Clean_Clean_append (a b : Str) (ha : a ≠ []) :
    Clean (Clean a ++ Separator :: b) = Clean (a ++ Separator :: b) := by
  rw [Clean_append (Clean a) b (Clean_ne_nil a), Clean_append a b ha, isRooted_Clean,
    cleanFold_Clean]

/-- Joining in two steps is joining in one step. -/
theorem Join_Join (a b c : Str) (hb : b ≠ []) : Join [Join [a, b], c] = Join [a, b, c] := by
  have hne := Join2_ne_nil a b hb
  by_cases ha : a = []
  · subst ha
    simp only [Join, if_true, hb, if_false, joinSlash] at hne ⊢
    rw [if_neg hne]
    exact Clean_Clean_append b c hb
  · simp only [Join, ha, if_false, joinSlash] at hne ⊢
    rw [if_neg hne]
    have := Clean_Clean_append (a ++ Separator :: b) c (by simp)
    simpa [List.append_assoc] using this

/-- The path `uploadFile` saves to is the join of the storage root, the PIN and the base
name of the client-supplied file name. -/
theorem uploadTarget_eq_Join (storagePath pin filename : Str) (hpin : pin ≠ []) :
    uploadTarget storagePath pin filename = Join [storagePath, pin, Base filename] :=
  Join_Join storagePath pin (Base filename) hpin

theorem byteLen_append (a b : Str) : byteLen (a ++ b) = byteLen a + byteLen b := by
  induction a with
  | nil => simp [byteLen]
  | cons c cs ih => simp [byteLen, ih, Nat.add_assoc]

theorem byteLen_pos (a : Str) (ha : a ≠ []) : 0 < byteLen a := by
  cases a with
  | nil => exact absurd rfl ha
  | cons c cs =>
    have := Char.utf8Size_pos c
    simp only [byteLen]
    omega

theorem joinSlash_append_singleton (l : List Str) (n : Str) (hl : l ≠ []) :
    joinSlash (l ++ [n]) = joinSlash l ++ Separator :: n := by
  induction l with
  | nil => exact absurd rfl hl
  | cons e es ih =>
    cases es with
    | nil => simp [joinSlash]
    | cons f fs =>
      have := ih (by simp)
      show e ++ Separator :: joinSlash (f :: fs ++ [n]) =
        (e ++ Separator :: joinSlash (f :: fs)) ++ Separator :: n
      rw [this]
      simp

/-- One more element makes the text of a path longer, and keeps its NUL bytes. -/
theorem renderPath_snoc (rooted : Bool) (l : List Str) (n : Str) (hn : n ≠ []) :
    byteLen (renderPath rooted l) ≤ byteLen (renderPath rooted (l ++ [n])) ∧
    (NUL ∈ renderPath rooted l → NUL ∈ renderPath rooted (l ++ [n])) := by
  by_cases hl : l = []
  · subst hl
    cases rooted with
    | true =>
      refine ⟨by simp [renderPath, joinSlash, byteLen], ?_⟩
      intro h
      simp only [renderPath, joinSlash, if_true, List.nil_append] at h ⊢
      rcases List.mem_cons.1 h with h | h
      · exact List.mem_cons.2 (Or.inl h)
      · simp at h
    | false =>
      have := byteLen_pos n hn
      simp only [renderPath, List.nil_append, joinSlash, if_true, Bool.false_eq_true, if_false]
      refine ⟨?_, ?_⟩
      · simp only [dot, byteLen, List.cons_ne_self, if_false]
        have h1 : Char.utf8Size '.' = 1 := by decide
        simp [h1]
        omega
      · intro h
        exfalso
        revert h
        simp only [dot, NUL]
        decide
  · have hl2 : l ++ [n] ≠ [] := by simp
    cases rooted with
    | true =>
      simp only [renderPath, if_true, joinSlash_append_singleton l n hl, byteLen,
        byteLen_append]
      refine ⟨by omega, ?_⟩
      intro h
      rcases List.mem_cons.1 h with h | h
      · exact List.mem_cons.2 (Or.inl h)
      · exact List.mem_cons.2 (Or.inr (List.mem_append_left _ h))
    | false =>
      simp only [renderPath, hl, hl2, if_false, Bool.false_eq_true,
        joinSlash_append_singleton l n hl, byteLen_append]
      exact ⟨by omega, fun h => List.mem_append_left _ h⟩

theorem pathErrno_none_iff (path : Str) :
    pathErrno path = none ↔ path ≠ [] ∧ NUL ∉ path ∧ byteLen path < PATH_MAX := by
  unfold pathErrno
  by_cases h1 : path = []
  · simp [h1]
  · rw [if_neg h1]
    by_cases h2 : NUL ∈ path
    · simp [h2]
    · rw [if_neg h2]
      by_cases h3 : PATH_MAX ≤ byteLen path
      · simp [h3, h1, h2]
      · rw [if_neg h3]
        simp [h1, h2]
        omega

/-- A path string raises `ENOENT` by itself only when it is empty. -/
theorem pathErrno_ENOENT (path : Str) (h : pathErrno path = some Errno.ENOENT) : path = [] := by
  unfold pathErrno at h
  by_cases h1 : path = []
  · exact h1
  · rw [if_neg h1] at h
    split_ifs at h <;> cases h

/-- When the path of an entry with a plain name raises no error by itself, neither does
the path of the directory. -/
theorem pathErrno_parent (a n : Str) (ha : a ≠ []) (hn : isPlainName n)
    (h : pathErrno (Join [Clean a, n]) = none) : pathErrno (Clean a) = none := by
  have hc := Clean_ne_nil a
  have hJ : Join [Clean a, n] = renderPath (isRooted a)
      (((splitSlash a).foldl (cleanStep (isRooted a)) []).reverse ++ [n]) := by
    simp only [Join, hc, if_false, joinSlash]
    rw [Clean_Clean_append a n ha, Clean_append a n ha, splitSlash_of_not_mem n hn.1.2]
    simp only [List.foldl_cons, List.foldl_nil]
    rw [cleanStep_plain _ _ n hn.1.1 hn.2.1 hn.2.2]
    simp
  have hC : Clean a = renderPath (isRooted a)
      ((splitSlash a).foldl (cleanStep (isRooted a)) []).reverse := by
    unfold Clean
    rw [if_neg ha]
  rw [pathErrno_none_iff] at h ⊢
  have hmono := renderPath_snoc (isRooted a)
    ((splitSlash a).foldl (cleanStep (isRooted a)) []).reverse n hn.1.1
  rw [← hJ, ← hC] at hmono
  exact ⟨hc, fun hh => h.2.1 (hmono.2 hh), by have := hmono.1; omega⟩

/-- When the path `uploadFile` saves to raises no error by itself, for a plain file name,
neither does the path of the PIN directory. -/
theorem pathErrno_pinPath (storagePath pin n : Str) (hpin : pin ≠ []) (hn : isPlainName n)
    (h : pathErrno (Join [Join [storagePath, pin], n]) = none) :
    pathErrno (Join [storagePath, pin]) = none := by
  by_cases ha : storagePath = []
  · subst ha
    simp only [Join, if_true, hpin, if_false, joinSlash] at h ⊢
    have hc := Clean_ne_nil pin
    have := pathErrno_parent pin n hpin hn (by simpa [Join, hc, joinSlash] using h)
    exact this
  · simp only [Join, ha, if_false, joinSlash] at h ⊢
    have hc := Clean_ne_nil (storagePath ++ Separator :: pin)
    exact pathErrno_parent _ n (by simp) hn (by simpa [Join, hc, joinSlash] using h)

/-! ## Filesystem primitives -/

theorem Base_plain (n : Str) (hne : n ≠ []) (hs : Separator ∉ n) : Base n = n := by
  have h1 : n.reverse.dropWhile (fun c => decide (c = Separator)) = n.reverse := by
    cases hr : n.reverse with
    | nil => rfl
    | cons c cs =>
      have hc : c ∈ n := by
        have : c ∈ n.reverse := by rw [hr]; simp
        exact List.mem_reverse.1 this
      have hcs : c ≠ Separator := fun h => hs (h ▸ hc)
      simp [List.dropWhile, hcs]
  have h2 : n.reverse.takeWhile (fun c => !decide (c = Separator)) = n.reverse := by
    rw [List.takeWhile_eq_self_iff]
    intro x hx
    have hx2 : x ∈ n := List.mem_reverse.1 hx
    have : x ≠ Separator := fun h => hs (h ▸ hx2)
    simp [this]
  simp only [Base, hne, if_false, h1, List.reverse_reverse, h2]

/-- The result of `Base` is a plain name, or one of `.`, `..` and `/`. -/
theorem Base_cases (f : Str) :
    isPlainName (Base f) ∨ Base f = dot ∨ Base f = dotdot ∨ Base f = [Separator] := by
  unfold Base
  split_ifs with h1
  · exact Or.inr (Or.inl rfl)
  · simp only
    split_ifs with h2
    · exact Or.inr (Or.inr (Or.inr rfl))
    · generalize hl : (List.takeWhile (fun c => !decide (c = Separator))
        (List.dropWhile (fun c => decide (c = Separator)) f.reverse).reverse.reverse).reverse
        = last at h2
      have hs : Separator ∉ last := by
        intro hm
        rw [← hl] at hm
        have := List.mem_takeWhile_imp (List.mem_reverse.1 hm)
        simp at this
      by_cases h3 : last = dot
      · exact Or.inr (Or.inl h3)
      · by_cases h4 : last = dotdot
        · exact Or.inr (Or.inr (Or.inl h4))
        · exact Or.inl ⟨⟨h2, hs⟩, h3, h4⟩

theorem lookup_filter_ne (p q : AbsPath) (m : List (AbsPath × Node)) :
    lookup q (m.filter (fun e => decide (e.1 ≠ p))) = if q = p then none else lookup q m := by
  induction m with
  | nil => simp [lookup]
  | cons e es ih =>
    obtain ⟨k, v⟩ := e
    by_cases hk : k = p
    · subst hk
      simp only [List.filter, ne_eq, not_true_eq_false, decide_False]
      rw [ih]
      by_cases hq : q = k
      · simp [hq]
      · have : k ≠ q := fun h => hq h.symm
        simp [hq, lookup, this]
    · simp only [List.filter, ne_eq, hk, not_false_eq_true, decide_True, lookup]
      rw [ih]
      by_cases hq : q = p
      · subst hq; simp [hk]
      · simp [hq]

theorem lookup_bind (p q : AbsPath) (v : Node) (m : List (AbsPath × Node)) :
    lookup q (bind p v m) = if q = p then some v else lookup q m := by
  unfold bind
  simp only [lookup]
  by_cases h : p = q
  · subst h; simp
  · have h2 : q ≠ p := fun e => h e.symm
    rw [if_neg h, lookup_filter_ne, if_neg h2, if_neg h2]

theorem lookup_mem (p : AbsPath) (v : Node) (m : List (AbsPath × Node))
    (h : lookup p m = some v) : (p, v) ∈ m := by
  induction m with
  | nil => simp [lookup] at h
  | cons e es ih =>
    obtain ⟨k, w⟩ := e
    simp only [lookup] at h
    split_ifs at h with hk
    · subst hk; simp at h; subst h; simp
    · exact List.mem_cons_of_mem _ (ih h)

theorem lookup_none_not_mem (p : AbsPath) (v : Node) (m : List (AbsPath × Node))
    (h : lookup p m = none) : (p, v) ∉ m := by
  induction m with
  | nil => simp
  | cons e es ih =>
    obtain ⟨k, w⟩ := e
    simp only [lookup] at h
    split_ifs at h with hk
    intro hm
    rcases List.mem_cons.1 hm with h1 | h1
    · simp at h1; exact hk h1.1.symm
    · exact ih h h1

theorem cons_ne_self (n : Str) (d : AbsPath) : n :: d ≠ d := by
  intro h
  have := congrArg List.length h
  simp at this

theorem childName_self (d : AbsPath) : childName d d = none := by
  cases d with
  | nil => rfl
  | cons n parent =>
    simp only [childName]
    rw [if_neg]
    intro h
    exact cons_ne_self n parent h.symm

theorem childName_eq_some (d k : AbsPath) (n : Str) :
    childName d k = some n ↔ k = n :: d := by
  cases k with
  | nil => simp [childName]
  | cons x parent =>
    simp only [childName]
    split_ifs with h
    · subst h; simp
    · simp [h]

theorem entriesOf_filter_child (m : List (AbsPath × Node)) (d : AbsPath) (n : Str) :
    entriesOf (m.filter (fun e => decide (e.1 ≠ n :: d))) d =
      (entriesOf m d).filter (fun e => decide (e.Name ≠ n)) := by
  induction m with
  | nil => simp [entriesOf]
  | cons e es ih =>
    obtain ⟨k, v⟩ := e
    unfold entriesOf at ih ⊢
    by_cases hk : k = n :: d
    · subst hk
      simp only [List.filter, ne_eq, not_true_eq_false, decide_False]
      rw [ih]
      simp [List.filterMap_cons, childName, entryOf]
    · simp only [List.filter, ne_eq, hk, not_false_eq_true, decide_True, List.filterMap_cons]
      cases hc : childName d k with
      | none => simpa using ih
      | some x =>
        have hx : x ≠ n := by
          intro hxn
          subst hxn
          exact hk ((childName_eq_some d k x).1 hc)
        simp only [Option.map_some']
        rw [ih]
        simp [List.filter, entryOf, hx]

theorem entriesOf_filter_other (m : List (AbsPath × Node)) (d p : AbsPath)
    (h : childName d p = none) :
    entriesOf (m.filter (fun e => decide (e.1 ≠ p))) d = entriesOf m d := by
  induction m with
  | nil => simp [entriesOf]
  | cons e es ih =>
    obtain ⟨k, v⟩ := e
    unfold entriesOf at ih ⊢
    by_cases hk : k = p
    · subst hk
      simp only [List.filter, ne_eq, not_true_eq_false, decide_False]
      rw [ih]
      simp [List.filterMap_cons, h]
    · simp only [List.filter, ne_eq, hk, not_false_eq_true, decide_True, List.filterMap_cons]
      rw [ih]

theorem entriesOf_cons_some (m : List (AbsPath × Node)) (d k : AbsPath) (v : Node) (n : Str)
    (h : childName d k = some n) : entriesOf ((k, v) :: m) d = entryOf n v :: entriesOf m d := by
  simp [entriesOf, List.filterMap_cons, h]

theorem entriesOf_cons_none (m : List (AbsPath × Node)) (d k : AbsPath) (v : Node)
    (h : childName d k = none) : entriesOf ((k, v) :: m) d = entriesOf m d := by
  simp [entriesOf, List.filterMap_cons, h]

theorem entriesOf_bind_child (m : List (AbsPath × Node)) (d : AbsPath) (n : Str) (v : Node) :
    entriesOf (bind (n :: d) v m) d =
      entryOf n v :: (entriesOf m d).filter (fun e => decide (e.Name ≠ n)) := by
  unfold bind
  rw [entriesOf_cons_some _ d (n :: d) v n ((childName_eq_some d _ n).2 rfl),
    entriesOf_filter_child]

theorem entriesOf_bind_other (m : List (AbsPath × Node)) (d p : AbsPath) (v : Node)
    (h : childName d p = none) : entriesOf (bind p v m) d = entriesOf m d := by
  unfold bind
  rw [entriesOf_cons_none _ d p v h, entriesOf_filter_other m d p h]

theorem foldl_appendSlice_some (l acc : List FileInfo) :
    l.foldl appendSlice (some acc) = some (acc ++ l) := by
  induction l generalizing acc with
  | nil => simp
  | cons x xs ih => simp [appendSlice, ih]

theorem foldl_appendSlice_none (l : List FileInfo) :
    l.foldl appendSlice none = if l = [] then none else some l := by
  cases l with
  | nil => simp
  | cons x xs => simp [appendSlice, foldl_appendSlice_some]

theorem collectFileInfos_eq (acc : Option (List FileInfo)) (files : List DirEntry) :
    collectFileInfos acc files = (files.filterMap infoOf).foldl appendSlice acc := by
  induction files generalizing acc with
  | nil => simp [collectFileInfos]
  | cons f fs ih =>
    simp only [collectFileInfos, List.filterMap_cons, infoOf]
    cases hd : f.IsDir with
    | true => simp [ih]
    | false =>
      cases hi : f.Info with
      | error e => simp [ih]
      | ok info => simp [ih]

theorem collectFileInfos_none (files : List DirEntry) :
    collectFileInfos none files =
      if files.filterMap infoOf = [] then none else some (files.filterMap infoOf) := by
  rw [collectFileInfos_eq, foldl_appendSlice_none]

theorem mkdirAbs_ok (m m1 : List (AbsPath × Node)) (p : AbsPath) (h : mkdirAbs m p = .ok m1) :
    ∃ n parent, p = n :: parent ∧ lookup parent m = some Node.dir ∧ lookup p m = none ∧
      m1 = bind p Node.dir m := by
  cases p with
  | nil => simp [mkdirAbs] at h
  | cons n parent =>
    simp only [mkdirAbs] at h
    cases hp : lookup parent m with
    | none => rw [hp] at h; simp at h
    | some v =>
      rw [hp] at h
      cases v with
      | file c => simp at h
      | dir =>
        simp only at h
        cases hx : lookup (n :: parent) m with
        | some w => rw [hx] at h; simp at h
        | none =>
          rw [hx] at h
          simp only at h
          by_cases hlen : NAME_MAX < byteLen n
          · rw [if_pos hlen] at h; cases h
          · rw [if_neg hlen] at h
            simp at h
            exact ⟨n, parent, rfl, hp, rfl, h.symm⟩

/-- The slow path of `os.MkdirAll`: the state and the error after the parent was made. -/
theorem mkdirAllAbs_cons (m : List (AbsPath × Node)) (n : Str) (parent : AbsPath)
    (hl : lookup (n :: parent) m = none) :
    mkdirAllAbs m (n :: parent) =
      match (mkdirAllAbs m parent).2 with
      | some e => ((mkdirAllAbs m parent).1, some e)
      | none =>
        match mkdirAbs (mkdirAllAbs m parent).1 (n :: parent) with
        | .ok m2 => (m2, none)
        | .error e => ((mkdirAllAbs m parent).1, some e) := by
  rw [mkdirAllAbs, hl]
  simp only
  rcases hr : mkdirAllAbs m parent with ⟨m1, _ | e⟩ <;> rfl

theorem mkdirAllAbs_bound (m : List (AbsPath × Node)) (p : AbsPath) (v : Node)
    (hl : lookup p m = some v) : (mkdirAllAbs m p).1 = m := by
  cases p with
  | nil => cases v <;> simp [mkdirAllAbs, hl]
  | cons n parent => cases v <;> simp [mkdirAllAbs, hl]

/-- Go `os.MkdirAll` leaves every path that is longer than its argument as it was. -/
theorem mkdirAllAbs_frame (m : List (AbsPath × Node)) (p : AbsPath)
    (q : AbsPath) (hq : p.length < q.length) :
    lookup q (mkdirAllAbs m p).1 = lookup q m := by
  induction p with
  | nil =>
    cases hl : lookup [] m with
    | none => simp [mkdirAllAbs, hl]
    | some v => rw [mkdirAllAbs_bound m [] v hl]
  | cons n parent ih =>
    have hq2 : parent.length < q.length := by
      simp at hq; omega
    have hne : q ≠ n :: parent := by
      intro e; rw [e] at hq; simp at hq
    cases hl : lookup (n :: parent) m with
    | some v => rw [mkdirAllAbs_bound m _ v hl]
    | none =>
      rw [mkdirAllAbs_cons m n parent hl]
      cases he : (mkdirAllAbs m parent).2 with
      | some e => exact ih hq2
      | none =>
        simp only
        cases hk : mkdirAbs (mkdirAllAbs m parent).1 (n :: parent) with
        | error e => exact ih hq2
        | ok m2 =>
          obtain ⟨_, _, _, _, _, hm2⟩ := mkdirAbs_ok _ _ _ hk
          simp only
          rw [hm2, lookup_bind, if_neg hne]
          exact ih hq2

/-! ## Handlers -/

theorem MkdirAll_cwd (fs : FS) (path : Str) : (MkdirAll fs path).1.cwd = fs.cwd := by
  unfold MkdirAll
  cases pathErrno path <;> rfl

theorem MkdirAll_nodes (fs : FS) (path : Str) (h : pathErrno path = none) :
    (MkdirAll fs path).1.nodes = (mkdirAllAbs fs.nodes (resolve fs.cwd path)).1 := by
  unfold MkdirAll
  rw [h]

theorem ensureDir_cwd (fs : FS) (path : Str) : (ensureDir fs path).cwd = fs.cwd := by
  unfold ensureDir
  cases hs : Stat fs path with
  | ok v => rfl
  | error err =>
    simp only
    split_ifs
    · exact MkdirAll_cwd fs path
    · rfl

theorem mkdirAllAbs_of_dir (m : List (AbsPath × Node)) (p : AbsPath)
    (h : lookup p m = some Node.dir) : mkdirAllAbs m p = (m, none) := by
  cases p with
  | nil => simp [mkdirAllAbs, h]
  | cons n parent => simp [mkdirAllAbs, h]

theorem Stat_ok_lookup (fs : FS) (path : Str) (v : Node) (h : Stat fs path = .ok v) :
    lookup (resolve fs.cwd path) fs.nodes = some v := by
  unfold Stat statAbs at h
  cases hp : pathErrno path with
  | some e => rw [hp] at h; cases h
  | none =>
    rw [hp] at h
    cases hl : lookup (resolve fs.cwd path) fs.nodes with
    | none => rw [hl] at h; simp at h
    | some w => rw [hl] at h; simp at h; rw [h]

theorem Stat_ok_pathErrno (fs : FS) (path : Str) (v : Node) (h : Stat fs path = .ok v) :
    pathErrno path = none := by
  unfold Stat at h
  cases hp : pathErrno path with
  | some e => rw [hp] at h; cases h
  | none => rfl

/-- The test of the handlers for a missing path holds only when the path string raises
no error by itself, the path is not bound and the walk ends with `ENOENT`. -/
theorem notExist_lookup (fs : FS) (path : Str) (hne : path ≠ [])
    (h : notExist fs path = true) :
    pathErrno path = none ∧ lookup (resolve fs.cwd path) fs.nodes = none ∧
      walkErrno fs.nodes (resolve fs.cwd path) = Errno.ENOENT := by
  unfold notExist Stat statAbs at h
  cases hp : pathErrno path with
  | some e =>
    rw [hp] at h
    simp only [IsNotExist, decide_eq_true_eq] at h
    rw [h] at hp
    exact absurd (pathErrno_ENOENT path hp) hne
  | none =>
    rw [hp] at h
    refine ⟨rfl, ?_⟩
    cases hl : lookup (resolve fs.cwd path) fs.nodes with
    | some w => rw [hl] at h; simp at h
    | none =>
      rw [hl] at h
      simp only [IsNotExist, decide_eq_true_eq] at h
      exact ⟨rfl, h⟩

/-- A path that exists is left alone: `os.Stat` succeeds, or fails with an error of the
path string, of which `os.IsNotExist` does not hold. -/
theorem ensureDir_of_exists (fs : FS) (path : Str) (v : Node) (hne : path ≠ [])
    (h : lookup (resolve fs.cwd path) fs.nodes = some v) : ensureDir fs path = fs := by
  unfold ensureDir
  cases hs : Stat fs path with
  | ok w => rfl
  | error err =>
    simp only
    rw [if_neg]
    intro hn
    have hne2 : notExist fs path = true := by simp [notExist, hs, hn]
    have := (notExist_lookup fs path hne hne2).2.1
    rw [h] at this
    cases this

/-- In a well-formed state the parent of an existing path is a directory. -/
theorem wellFormed_parent (fs : FS) (hwf : fs.WellFormed) (n : Str) (parent : AbsPath) (v : Node)
    (h : lookup (n :: parent) fs.nodes = some v) : lookup parent fs.nodes = some Node.dir := by
  have hm := lookup_mem _ _ _ h
  have := hwf.2 _ hm
  simpa [parentIsDir, FS.get] using this

theorem entriesOf_of_missing (fs : FS) (hwf : fs.WellFormed) (d : AbsPath)
    (h : lookup d fs.nodes = none) : entriesOf fs.nodes d = [] := by
  unfold entriesOf
  rw [List.filterMap_eq_nil_iff]
  intro e he
  obtain ⟨k, v⟩ := e
  cases hc : childName d k with
  | none => simp
  | some n =>
    have hk := (childName_eq_some d k n).1 hc
    subst hk
    have hl : lookup (n :: d) fs.nodes ≠ none := by
      intro hn
      cases hv : lookup (n :: d) fs.nodes with
      | none => exact lookup_none_not_mem _ v _ hv he
      | some w => rw [hv] at hn; cases hn
    cases hv : lookup (n :: d) fs.nodes with
    | none => exact absurd hv hl
    | some w =>
      have := wellFormed_parent fs hwf n d w hv
      rw [h] at this
      cases this

/-- When the storage root is a directory of a well-formed state and `os.Stat` reports
the PIN directory missing, the PIN directory is the entry `pin` of the storage root,
`ensureDir` creates exactly that directory, and the PIN is not longer than `NAME_MAX`
bytes. -/
theorem ensureDir_missing (fs : FS) (storagePath pin : Str) (hwf : fs.WellFormed)
    (hroot : Stat fs storagePath = .ok Node.dir) (hpin : isSegment pin)
    (hmiss : notExist fs (Join [storagePath, pin]) = true) :
    resolve fs.cwd (Join [storagePath, pin]) = pin :: resolve fs.cwd storagePath ∧
    lookup (pin :: resolve fs.cwd storagePath) fs.nodes = none ∧
    ensureDir fs (Join [storagePath, pin]) =
      { fs with nodes := bind (pin :: resolve fs.cwd storagePath) Node.dir fs.nodes } ∧
    pathErrno (Join [storagePath, pin]) = none ∧ byteLen pin ≤ NAME_MAX := by
  have hR := Stat_ok_lookup fs storagePath Node.dir hroot
  have hD := resolve_Join2 fs.cwd storagePath pin hpin.1 hpin.2
  have hne := Join2_ne_nil storagePath pin hpin.1
  obtain ⟨hpe, hm, hw⟩ := notExist_lookup fs _ hne hmiss
  rw [hD] at hm hw
  have hplain : resolveStep (resolve fs.cwd storagePath) pin = pin :: resolve fs.cwd storagePath := by
    by_cases h1 : pin = dot
    · rw [resolveStep_skip _ pin (Or.inr h1)] at hm
      rw [hm] at hR; cases hR
    · by_cases h2 : pin = dotdot
      · subst h2
        rw [resolveStep_dotdot] at hm
        cases hr : resolve fs.cwd storagePath with
        | nil => rw [hr] at hm hR; simp at hm; rw [hm] at hR; cases hR
        | cons x rest =>
          rw [hr] at hm hR
          have := wellFormed_parent fs hwf x rest _ hR
          simp at hm
          rw [hm] at this; cases this
      · exact resolveStep_plain _ pin hpin.1 h1 h2
  rw [hplain] at hm hw hD
  refine ⟨hD, hm, ?_⟩
  have hlen : ¬ NAME_MAX < byteLen pin := by
    intro hlong
    simp [walkErrno, hR, hlong] at hw
  have hstat : Stat fs (Join [storagePath, pin]) =
      .error ⟨"stat".data, Join [storagePath, pin], Errno.ENOENT⟩ := by
    simp [Stat, statAbs, hD, hm, hw, hpe]
  have hmk : (MkdirAll fs (Join [storagePath, pin])).1 =
      { fs with nodes := bind (pin :: resolve fs.cwd storagePath) Node.dir fs.nodes } := by
    simp [MkdirAll, hpe, hD, mkdirAllAbs, hm, mkdirAllAbs_of_dir _ _ hR, mkdirAbs, hR, hlen]
  exact ⟨by simp [ensureDir, hstat, IsNotExist, hmk], hpe, by omega⟩

theorem readDirAbs_of_dir (m : List (AbsPath × Node)) (d : AbsPath)
    (h : lookup d m = some Node.dir) :
    readDirAbs m d = .ok ((entriesOf m d).insertionSort entryLE) := by
  simp [readDirAbs, statAbs, h]

/-- The response of `listFiles` when the PIN directory exists. -/
theorem listFiles_of_dir (fs : FS) (storagePath pin : Str) (hpin : pin ≠ [])
    (hp : pathErrno (Join [storagePath, pin]) = none)
    (h : lookup (resolve fs.cwd (Join [storagePath, pin])) fs.nodes = some Node.dir) :
    listFiles fs storagePath pin =
      (fs, ⟨200, Body.jsonFiles (marshalSlice (collectFileInfos none
        ((entriesOf fs.nodes (resolve fs.cwd (Join [storagePath, pin]))).insertionSort
          entryLE)))⟩) := by
  have hne := Join2_ne_nil storagePath pin hpin
  simp [listFiles, ensureDir_of_exists fs _ _ hne h, listResponse, ReadDir,
    readDirAbs_of_dir _ _ h, hp]

theorem writeFileAbs_ok (m m1 : List (AbsPath × Node)) (p : AbsPath) (content : Bytes)
    (h : writeFileAbs m p content = .ok m1) :
    ∃ n parent, p = n :: parent ∧ lookup parent m = some Node.dir ∧
      lookup p m ≠ some Node.dir ∧ m1 = bind p (Node.file content) m := by
  cases p with
  | nil => simp [writeFileAbs] at h
  | cons n parent =>
    simp only [writeFileAbs] at h
    cases hp : lookup parent m with
    | none => rw [hp] at h; simp at h
    | some v =>
      rw [hp] at h
      cases v with
      | file c => simp at h
      | dir =>
        simp only at h
        cases hx : lookup (n :: parent) m with
        | none =>
          rw [hx] at h
          simp only at h
          by_cases hlen : NAME_MAX < byteLen n
          · rw [if_pos hlen] at h; cases h
          · rw [if_neg hlen] at h
            simp at h
            exact ⟨n, parent, rfl, hp, by simp, h.symm⟩
        | some w =>
          rw [hx] at h
          cases w with
          | dir => simp at h
          | file c => simp at h; exact ⟨n, parent, rfl, hp, by simp, h.symm⟩

theorem SaveUploadedFile_ok (fs fs2 : FS) (file : FileHeader) (dst : Str)
    (h : SaveUploadedFile fs file dst = .ok fs2) :
    pathErrno dst = none ∧
    ∃ n parent, resolve fs.cwd dst = n :: parent ∧ lookup parent fs.nodes = some Node.dir ∧
      lookup (n :: parent) fs.nodes ≠ some Node.dir ∧
      fs2 = { fs with nodes := bind (n :: parent) (Node.file file.content) fs.nodes } := by
  unfold SaveUploadedFile at h
  cases hp : pathErrno dst with
  | some e => rw [hp] at h; cases h
  | none =>
    rw [hp] at h
    refine ⟨rfl, ?_⟩
    cases hw : writeFileAbs fs.nodes (resolve fs.cwd dst) file.content with
    | error e => rw [hw] at h; simp at h
    | ok m =>
      rw [hw] at h
      simp at h
      obtain ⟨n, parent, hr, hpar, hfree, hm⟩ := writeFileAbs_ok _ _ _ _ hw
      rw [hr] at hfree hm
      exact ⟨n, parent, hr, hpar, hfree, by rw [← h, hm]⟩

/-- The absolute path `uploadFile` saves to: path resolution from the PIN directory along
the base name of the client-supplied file name. -/
theorem resolve_uploadTarget (cwd : AbsPath) (storagePath pin filename : Str) (hpin : pin ≠ []) :
    resolve cwd (uploadTarget storagePath pin filename) =
      (splitSlash (Base filename)).foldl resolveStep (resolve cwd (Join [storagePath, pin])) := by
  unfold uploadTarget
  exact resolve_Join2_gen cwd _ _ (Join2_ne_nil storagePath pin hpin)

theorem tail_ne_self (l : AbsPath) (hl : l ≠ []) : l.tail ≠ l := by
  intro h
  have := congrArg List.length h
  cases l with
  | nil => exact hl rfl
  | cons x xs => simp at this

/-- The path `uploadFile` saves to is an entry of the PIN directory exactly when the base
name of the client-supplied file name is a plain name: not for `.`, `..`, `/` and the
empty name. -/
theorem uploadTarget_child_iff (cwd : AbsPath) (storagePath pin filename : Str)
    (hpin : pin ≠ []) :
    isDirectChild (resolve cwd (Join [storagePath, pin]))
      (resolve cwd (uploadTarget storagePath pin filename)) ↔ isPlainName (Base filename) := by
  rw [resolve_uploadTarget cwd storagePath pin filename hpin]
  generalize resolve cwd (Join [storagePath, pin]) = d
  constructor
  · intro hc
    rcases Base_cases filename with h | h | h | h
    · exact h
    · exfalso
      rw [h] at hc
      have : (splitSlash dot).foldl resolveStep d = d := by
        simp [splitSlash, dot, Separator, resolveStep]
      rw [this] at hc
      exact tail_ne_self d hc.1 hc.2
    · exfalso
      rw [h] at hc
      have : (splitSlash dotdot).foldl resolveStep d = d.tail := by
        simp [splitSlash, dotdot, dot, Separator, resolveStep]
      rw [this] at hc
      cases d with
      | nil => exact hc.1 rfl
      | cons x xs =>
        cases xs with
        | nil => exact hc.1 rfl
        | cons y ys =>
          have h2 := congrArg List.length hc.2
          simp at h2
          omega
    · exfalso
      rw [h] at hc
      have : (splitSlash [Separator]).foldl resolveStep d = d := by
        simp [splitSlash, Separator, resolveStep]
      rw [this] at hc
      exact tail_ne_self d hc.1 hc.2
  · intro h
    rw [splitSlash_of_not_mem _ h.1.2]
    simp only [List.foldl_cons, List.foldl_nil]
    rw [resolveStep_plain _ _ h.1.1 h.2.1 h.2.2]
    exact ⟨by simp, rfl⟩

/-- The path `uploadFile` saves to, for a plain file name: the entry of that name of the
PIN directory. -/
theorem resolve_uploadTarget_plain (cwd : AbsPath) (storagePath pin n : Str)
    (hn : isPlainName n) :
    resolve cwd (uploadTarget storagePath pin n) =
      n :: resolve cwd (Join [storagePath, pin]) := by
  unfold uploadTarget
  rw [Base_plain n hn.1.1 hn.1.2, resolve_Join2 cwd _ n hn.1.1 hn.1.2,
    resolveStep_plain _ n hn.1.1 hn.2.1 hn.2.2]

/-- The path `downloadFile` looks up, for a plain file name: the entry of that name of
the PIN directory. -/
theorem resolve_downloadPath_plain (cwd : AbsPath) (storagePath pin n : Str)
    (hpin : isSegment pin) (hn : isPlainName n) :
    resolve cwd (Join [storagePath, pin, n]) =
      n :: resolve cwd (Join [storagePath, pin]) := by
  rw [resolve_Join3 cwd _ pin n hpin.1 hpin.2 hn.1.2, resolve_Join2 cwd _ pin hpin.1 hpin.2,
    resolveStep_plain _ n hn.1.1 hn.2.1 hn.2.2]

/-- A successful upload of a plain file name: the PIN directory is a directory, the new
state binds the entry of that name to the uploaded bytes, and neither the path of the
PIN directory nor the path of the file raises an error by itself. -/
theorem uploadFile_ok (fs : FS) (storagePath pin n : Str) (b : Bytes) (hpin : pin ≠ [])
    (hn : isPlainName n)
    (h : (uploadFile fs storagePath pin (.ok ⟨n, b⟩)).2.status = 200) :
    lookup (resolve fs.cwd (Join [storagePath, pin]))
      (ensureDir fs (Join [storagePath, pin])).nodes = some Node.dir ∧
    (uploadFile fs storagePath pin (.ok ⟨n, b⟩)).1 =
      { cwd := fs.cwd,
        nodes := bind (n :: resolve fs.cwd (Join [storagePath, pin])) (Node.file b)
          (ensureDir fs (Join [storagePath, pin])).nodes } ∧
    pathErrno (Join [storagePath, pin]) = none ∧
    pathErrno (Join [storagePath, pin, n]) = none := by
  have htgt := resolve_uploadTarget_plain fs.cwd storagePath pin n hn
  unfold uploadTarget at htgt
  unfold uploadFile at h ⊢
  simp only at h ⊢
  cases hsave : SaveUploadedFile (ensureDir fs (Join [storagePath, pin])) ⟨n, b⟩
      (Join [Join [storagePath, pin], Base n]) with
  | error err => rw [hsave] at h; simp at h
  | ok fs2 =>
    obtain ⟨hpe, x, parent, hx, hp, _, hfs⟩ := SaveUploadedFile_ok _ _ _ _ hsave
    rw [ensureDir_cwd, htgt] at hx
    injection hx with hx1 hx2
    subst hx1; subst hx2
    rw [Base_plain n hn.1.1 hn.1.2] at hpe
    refine ⟨hp, ?_, pathErrno_pinPath storagePath pin n hpin hn hpe, ?_⟩
    · simp only [hfs, ensureDir_cwd]
    · rw [← Join_Join storagePath pin n hpin]
      exact hpe

theorem infoOf_entryOf_file (n : Str) (b : Bytes) :
    infoOf (entryOf n (Node.file b)) = some ⟨n, b.length⟩ := by
  simp [infoOf, entryOf, nodeSize]

theorem infoOf_name (e : DirEntry) (i : FileInfo) (h : infoOf e = some i) : i.Name = e.Name := by
  unfold infoOf at h
  split_ifs at h
  cases hi : e.Info with
  | error err => rw [hi] at h; simp at h
  | ok info => rw [hi] at h; simp at h; rw [← h]

theorem not_index_suffix (pin n : Str) (hn : Separator ∉ n) (hidx : n ≠ "index.html".data) :
    ("/index.html".data).isSuffixOf (downloadURL pin n) = false := by
  cases hs : ("/index.html".data).isSuffixOf (downloadURL pin n) with
  | false => rfl
  | true =>
    exfalso
    rw [List.isSuffixOf_iff_suffix] at hs
    have h2 : ('/' :: n) <:+ downloadURL pin n := by
      unfold downloadURL
      exact List.suffix_append _ _
    have hI : ("/index.html".data) = '/' :: "index.html".data := rfl
    rw [hI] at hs
    rcases List.suffix_or_suffix_of_suffix hs h2 with h3 | h3
    · rcases List.suffix_cons_iff.1 h3 with h4 | h4
      · injection h4 with _ h5
        exact hidx h5.symm
      · exact hn (h4.subset (by simp [Separator]))
    · rcases List.suffix_cons_iff.1 h3 with h4 | h4
      · injection h4 with _ h5
        exact hidx h5
      · have : '/' ∈ "index.html".data := h4.subset (by simp)
        revert this
        decide

theorem ensureDir_frame (fs : FS) (path : Str) (q : AbsPath)
    (hq : (resolve fs.cwd path).length < q.length) :
    lookup q (ensureDir fs path).nodes = lookup q fs.nodes := by
  unfold ensureDir
  cases hs : Stat fs path with
  | ok v => rfl
  | error err =>
    simp only
    split_ifs
    · cases hp : pathErrno path with
      | some e => simp [MkdirAll, hp]
      | none =>
        rw [MkdirAll_nodes fs path hp]
        exact mkdirAllAbs_frame _ _ q hq
    · rfl

/-! ## Invariants of the running server -/

/-- Binding a path whose parent is a directory, and which is not itself a directory,
keeps the state a tree. -/
theorem wellFormed_bind (fs : FS) (hwf : fs.WellFormed) (n : Str) (parent : AbsPath) (v : Node)
    (hpar : lookup parent fs.nodes = some Node.dir)
    (hfree : lookup (n :: parent) fs.nodes ≠ some Node.dir) :
    FS.WellFormed { cwd := fs.cwd, nodes := bind (n :: parent) v fs.nodes } := by
  constructor
  · have h0 : ([] : AbsPath) ≠ n :: parent := by simp
    simpa [FS.get, lookup_bind, h0] using hwf.1
  · intro e he
    simp only [bind, List.mem_cons, List.mem_filter] at he
    rcases he with he | ⟨hem, hne⟩
    · subst he
      simp only [parentIsDir, decide_eq_true_eq]
      rw [lookup_bind, if_neg (fun h => cons_ne_self n parent h.symm)]
      exact hpar
    · have hp := hwf.2 e hem
      obtain ⟨k, w⟩ := e
      cases k with
      | nil => rfl
      | cons x par =>
        simp only [parentIsDir, decide_eq_true_eq] at hp ⊢
        rw [lookup_bind]
        split_ifs with hx
        · rw [hx] at hp
          exact absurd hp hfree
        · exact hp

/-- Go `os.MkdirAll` keeps the state a tree and keeps every directory, also when it
fails. -/
theorem mkdirAllAbs_invariant (cwd : AbsPath) (p : AbsPath) :
    ∀ m : List (AbsPath × Node), FS.WellFormed ⟨cwd, m⟩ →
      FS.WellFormed ⟨cwd, (mkdirAllAbs m p).1⟩ ∧
      ∀ q, lookup q m = some Node.dir → lookup q (mkdirAllAbs m p).1 = some Node.dir := by
  induction p with
  | nil =>
    intro m hwf
    cases hl : lookup [] m with
    | none => simp only [mkdirAllAbs, hl]; exact ⟨hwf, fun _ hq => hq⟩
    | some v => rw [mkdirAllAbs_bound m [] v hl]; exact ⟨hwf, fun _ hq => hq⟩
  | cons n parent ih =>
    intro m hwf
    cases hl : lookup (n :: parent) m with
    | some v => rw [mkdirAllAbs_bound m _ v hl]; exact ⟨hwf, fun _ hq => hq⟩
    | none =>
      rw [mkdirAllAbs_cons m n parent hl]
      obtain ⟨hwf2, hdir2⟩ := ih m hwf
      cases he : (mkdirAllAbs m parent).2 with
      | some e => exact ⟨hwf2, hdir2⟩
      | none =>
        simp only
        cases hk : mkdirAbs (mkdirAllAbs m parent).1 (n :: parent) with
        | error e => exact ⟨hwf2, hdir2⟩
        | ok m2 =>
          obtain ⟨x, par, hp, hpar, hfree, hm1⟩ := mkdirAbs_ok _ _ _ hk
          injection hp with hp1 hp2
          subst hp1; subst hp2
          subst hm1
          simp only
          refine ⟨wellFormed_bind ⟨cwd, (mkdirAllAbs m parent).1⟩ hwf2 n parent Node.dir hpar
            (by rw [hfree]; simp), ?_⟩
          intro q hq
          rw [lookup_bind]
          split_ifs
          · rfl
          · exact hdir2 q hq

/-- The step `ensureDir` keeps the state a tree and keeps every directory. -/
theorem ensureDir_invariant (fs : FS) (path : Str) (hwf : fs.WellFormed) :
    (ensureDir fs path).WellFormed ∧
      ∀ q, fs.get q = some Node.dir → (ensureDir fs path).get q = some Node.dir := by
  unfold ensureDir
  cases hs : Stat fs path with
  | ok v => exact ⟨hwf, fun _ hq => hq⟩
  | error err =>
    simp only
    split_ifs
    · unfold MkdirAll
      cases hp : pathErrno path with
      | some e => exact ⟨hwf, fun _ hq => hq⟩
      | none => exact mkdirAllAbs_invariant fs.cwd _ fs.nodes hwf
    · exact ⟨hwf, fun _ hq => hq⟩

/-- Gin `SaveUploadedFile` keeps the state a tree and keeps every directory. -/
theorem SaveUploadedFile_invariant (fs fs2 : FS) (file : FileHeader) (dst : Str)
    (hwf : fs.WellFormed) (h : SaveUploadedFile fs file dst = .ok fs2) :
    fs2.WellFormed ∧ fs2.cwd = fs.cwd ∧
      ∀ q, fs.get q = some Node.dir → fs2.get q = some Node.dir := by
  obtain ⟨_, n, parent, _, hpar, hfree, hfs⟩ := SaveUploadedFile_ok _ _ _ _ h
  subst hfs
  refine ⟨wellFormed_bind fs hwf n parent _ hpar hfree, rfl, ?_⟩
  intro q hq
  simp only [FS.get] at hq ⊢
  rw [lookup_bind]
  split_ifs with hx
  · rw [hx] at hq; exact absurd hq hfree
  · exact hq

/-- Every request keeps the state a tree, keeps the working directory and keeps every
directory. -/
theorem serve_invariant (storagePath : Str) (fs : FS) (r : Request) (hwf : fs.WellFormed) :
    (serve storagePath fs r).WellFormed ∧ (serve storagePath fs r).cwd = fs.cwd ∧
      ∀ q, fs.get q = some Node.dir → (serve storagePath fs r).get q = some Node.dir := by
  cases r with
  | list pin =>
    simp only [serve, listFiles]
    exact ⟨(ensureDir_invariant fs _ hwf).1, ensureDir_cwd fs _, (ensureDir_invariant fs _ hwf).2⟩
  | download pin filename => exact ⟨hwf, rfl, fun _ hq => hq⟩
  | upload pin formFile =>
    have he := ensureDir_invariant fs (Join [storagePath, pin]) hwf
    have hc := ensureDir_cwd fs (Join [storagePath, pin])
    cases formFile with
    | error err => simp only [serve, uploadFile]; exact ⟨he.1, hc, he.2⟩
    | ok file =>
      simp only [serve, uploadFile]
      cases hsave : SaveUploadedFile (ensureDir fs (Join [storagePath, pin])) file
          (Join [Join [storagePath, pin], Base file.Filename]) with
      | error err => exact ⟨he.1, hc, he.2⟩
      | ok fs2 =>
        obtain ⟨h1, h2, h3⟩ := SaveUploadedFile_invariant _ _ _ _ he.1 hsave
        exact ⟨h1, h2.trans hc, fun q hq => h3 q (he.2 q hq)⟩

theorem Stat_dir_iff (fs : FS) (path : Str) :
    Stat fs path = .ok Node.dir ↔
      pathErrno path = none ∧ fs.get (resolve fs.cwd path) = some Node.dir := by
  unfold Stat statAbs FS.get
  cases hp : pathErrno path with
  | some e => simp
  | none =>
    cases hl : lookup (resolve fs.cwd path) fs.nodes with
    | none => simp
    | some v => simp

/-- The hypotheses on the state are invariants of the running server: once the state is
a tree in which the storage root is a directory (as `main` leaves it), it stays so
under every sequence of requests. -/
theorem served_state_invariant (storagePath : Str) (reqs : List Request) :
    ∀ fs : FS, fs.WellFormed → Stat fs storagePath = .ok Node.dir →
      (reqs.foldl (serve storagePath) fs).WellFormed ∧
      Stat (reqs.foldl (serve storagePath) fs) storagePath = .ok Node.dir := by
  induction reqs with
  | nil => intro fs hwf hroot; exact ⟨hwf, hroot⟩
  | cons r rs ih =>
    intro fs hwf hroot
    obtain ⟨h1, h2, h3⟩ := serve_invariant storagePath fs r hwf
    apply ih _ h1
    rw [Stat_dir_iff] at hroot ⊢
    refine ⟨hroot.1, ?_⟩
    rw [h2]
    exact h3 _ hroot.2

theorem ServeFile_not_jsonError (fs : FS) (urlPath name msg : Str) (status : Nat) :
    ServeFile fs urlPath name ≠ ⟨status, Body.jsonError msg⟩ := by
  unfold ServeFile
  repeat' split
  all_goals simp

/-! ## Sharpness of the amended claims -/

/-- After a successful upload of a plain file name, the path `downloadFile` looks up is a
regular file holding the uploaded bytes. -/
theorem Stat_after_upload (fs : FS) (storagePath pin n : Str) (b : Bytes) (hpin : isSegment pin)
    (hn : isPlainName n)
    (h : (uploadFile fs storagePath pin (.ok ⟨n, b⟩)).2.status = 200) :
    Stat (uploadFile fs storagePath pin (.ok ⟨n, b⟩)).1 (Join [storagePath, pin, n]) =
      .ok (Node.file b) := by
  obtain ⟨_, hfs, _, hpe⟩ := uploadFile_ok fs storagePath pin n b hpin.1 hn h
  rw [hfs]
  have hT := resolve_downloadPath_plain fs.cwd storagePath pin n hpin hn
  simp [Stat, statAbs, hT, lookup_bind, hpe]

/-- The two exclusions of the amended round trip are forced: after a successful upload
of a plain file name, a download whose request path has a `..` element is answered 400,
and a download of `index.html` is answered with a redirect; neither serves the bytes. -/
theorem download_excluded (fs : FS) (storagePath pin n : Str) (b : Bytes) (hpin : isSegment pin)
    (hn : isPlainName n)
    (h : (uploadFile fs storagePath pin (.ok ⟨n, b⟩)).2.status = 200) :
    (containsDotDot (downloadURL pin n) = true →
      downloadFile (uploadFile fs storagePath pin (.ok ⟨n, b⟩)).1 storagePath pin n =
        ⟨400, Body.text "invalid URL path".data⟩) ∧
    (containsDotDot (downloadURL pin n) = false → n = "index.html".data →
      downloadFile (uploadFile fs storagePath pin (.ok ⟨n, b⟩)).1 storagePath pin n =
        ⟨301, Body.redirect "./".data⟩) := by
  have hstat := Stat_after_upload fs storagePath pin n b hpin hn h
  constructor
  · intro hurl
    simp [downloadFile, hstat, ServeFile, hurl]
  · intro hurl hidx
    have hsuf : ("/index.html".data).isSuffixOf (downloadURL pin n) = true := by
      rw [List.isSuffixOf_iff_suffix, hidx]
      unfold downloadURL
      exact List.suffix_append _ _
    simp [downloadFile, hstat, ServeFile, hurl, hsuf]

/-- The PIN directory is an entry of the storage root exactly when the PIN segment is a
plain name: not for `.` and `..`. -/
theorem pinDir_child_iff (cwd : AbsPath) (storagePath pin : Str) (hpin : isSegment pin) :
    isDirectChild (resolve cwd storagePath) (resolve cwd (Join [storagePath, pin])) ↔
      isPlainName pin := by
  rw [resolve_Join2 cwd storagePath pin hpin.1 hpin.2]
  generalize resolve cwd storagePath = d
  constructor
  · intro hc
    by_cases h1 : pin = dot
    · exfalso
      rw [resolveStep_skip _ _ (Or.inr h1)] at hc
      exact tail_ne_self d hc.1 hc.2
    · by_cases h2 : pin = dotdot
      · exfalso
        rw [h2, resolveStep_dotdot] at hc
        cases d with
        | nil => exact hc.1 rfl
        | cons x xs =>
          cases xs with
          | nil => exact hc.1 rfl
          | cons y ys =>
            have h3 := congrArg List.length hc.2
            simp at h3
            omega
      · exact ⟨hpin, h1, h2⟩
  · intro h
    rw [resolveStep_plain _ _ h.1.1 h.2.1 h.2.2]
    exact ⟨by simp, rfl⟩

/-- The restriction of the amended claims on a missing PIN directory is forced: when the
PIN is a plain name of more than `NAME_MAX` bytes, its directory does not exist, and yet
`os.Stat` does not report it missing (the error is not `ENOENT`); nothing is created,
`listFiles` responds 500 and a rejected upload leaves the state as it was. -/
theorem long_pin_not_created (fs : FS) (storagePath pin : Str)
    (hroot : Stat fs storagePath = .ok Node.dir) (hpin : isPlainName pin)
    (hfree : fs.get (resolve fs.cwd (Join [storagePath, pin])) = none)
    (hlong : NAME_MAX < byteLen pin) :
    notExist fs (Join [storagePath, pin]) = false ∧
    (listFiles fs storagePath pin).1 = fs ∧ (listFiles fs storagePath pin).2.status = 500 ∧
    ∀ err, uploadFile fs storagePath pin (.error err) = (fs, ⟨400, Body.jsonError err⟩) := by
  have hR := Stat_ok_lookup fs storagePath Node.dir hroot
  have hD : resolve fs.cwd (Join [storagePath, pin]) = pin :: resolve fs.cwd storagePath := by
    rw [resolve_Join2 fs.cwd _ pin hpin.1.1 hpin.1.2,
      resolveStep_plain _ pin hpin.1.1 hpin.2.1 hpin.2.2]
  have hne := Join2_ne_nil storagePath pin hpin.1.1
  simp only [FS.get] at hfree
  have hnot : notExist fs (Join [storagePath, pin]) = false := by
    cases hn : notExist fs (Join [storagePath, pin]) with
    | false => rfl
    | true =>
      have hw := (notExist_lookup fs _ hne hn).2.2
      rw [hD] at hw
      simp [walkErrno, hR, hlong] at hw
  have hens : ensureDir fs (Join [storagePath, pin]) = fs := by
    unfold ensureDir
    unfold notExist at hnot
    cases hs : Stat fs (Join [storagePath, pin]) with
    | ok v => rfl
    | error err =>
      rw [hs] at hnot
      simp only at hnot ⊢
      rw [hnot]
      rfl
  have hread : ∃ err, ReadDir fs (Join [storagePath, pin]) = .error err := by
    unfold ReadDir
    cases hp : pathErrno (Join [storagePath, pin]) with
    | some e => exact ⟨_, rfl⟩
    | none => simp [readDirAbs, statAbs, hfree]
  obtain ⟨err, herr⟩ := hread
  refine ⟨hnot, ?_, ?_, ?_⟩
  · simp [listFiles, hens]
  · simp [listFiles, hens, herr, listResponse]
  · intro e
    simp [uploadFile, hens]

/-- For a PIN that is a plain name, in a state whose storage root is a directory, `os.Stat`
reports the PIN directory missing exactly when the joined path raises no error by
itself, the PIN directory is not bound and the PIN is at most `NAME_MAX` bytes long. -/
theorem notExist_pinDir_iff (fs : FS) (storagePath pin : Str)
    (hroot : Stat fs storagePath = .ok Node.dir) (hpin : isPlainName pin) :
    notExist fs (Join [storagePath, pin]) = true ↔
      pathErrno (Join [storagePath, pin]) = none ∧
      fs.get (resolve fs.cwd (Join [storagePath, pin])) = none ∧ byteLen pin ≤ NAME_MAX := by
  have hR := Stat_ok_lookup fs storagePath Node.dir hroot
  have hD : resolve fs.cwd (Join [storagePath, pin]) = pin :: resolve fs.cwd storagePath := by
    rw [resolve_Join2 fs.cwd _ pin hpin.1.1 hpin.1.2,
      resolveStep_plain _ pin hpin.1.1 hpin.2.1 hpin.2.2]
  have hne := Join2_ne_nil storagePath pin hpin.1.1
  constructor
  · intro h
    obtain ⟨hpe, hm, hw⟩ := notExist_lookup fs _ hne h
    refine ⟨hpe, hm, ?_⟩
    rw [hD] at hw
    by_cases hlong : NAME_MAX < byteLen pin
    · simp [walkErrno, hR, hlong] at hw
    · omega
  · rintro ⟨hpe, hm, hlen⟩
    have hlen2 : ¬ NAME_MAX < byteLen pin := by omega
    simp only [FS.get] at hm
    rw [hD] at hm
    simp [notExist, Stat, statAbs, hpe, hD, hm, walkErrno, hR, hlen2, IsNotExist]

/-! ## The claims -/

/-- C1.  For the client-supplied file name `..` under PIN `123456` and storage root
`./storage`, the path `uploadFile` saves to is `storage`, the storage root: the parent
of the PIN directory `storage/123456`, not an entry of it; for `.` it is the PIN
directory itself.  (For `a/../../etc/passwd` it is `storage/123456/passwd`.)  When the
PIN path is a regular file, as `storage/x` after an upload of `x` under PIN `.`, an
upload named `.` under PIN `x` is answered 200 and overwrites that file: bytes are
written at the PIN path itself. -/
theorem C1_upload_target_not_confined :
    Join ["./storage".data, "123456".data] = "storage/123456".data ∧
    uploadTarget "./storage".data "123456".data "..".data = "storage".data ∧
    uploadTarget "./storage".data "123456".data ".".data = "storage/123456".data ∧
    uploadTarget "./storage".data "123456".data "a/../../etc/passwd".data =
      "storage/123456/passwd".data ∧
    ¬ isDirectChild (resolve startFS.cwd (Join ["./storage".data, "123456".data]))
      (resolve startFS.cwd (uploadTarget "./storage".data "123456".data "..".data)) ∧
    (uploadFile startFS "./storage".data "123456".data (.ok ⟨"..".data, [104, 105]⟩)).2.status
      = 500 ∧
    (uploadFile (uploadFile startFS "./storage".data ".".data (.ok ⟨"x".data, [1]⟩)).1
      "./storage".data "x".data (.ok ⟨".".data, [2, 3]⟩)).2.status = 200 ∧
    (uploadFile (uploadFile startFS "./storage".data ".".data (.ok ⟨"x".data, [1]⟩)).1
      "./storage".data "x".data (.ok ⟨".".data, [2, 3]⟩)).1.get
        (resolve startFS.cwd (Join ["./storage".data, "x".data])) = some (Node.file [2, 3]) := by
  decide

/-- C2, amended.  Round trip over an explicit filesystem state: for every PIN (a path
segment), every plain file name `n` and every content `b`, after `uploadFile` succeeds
(200) with `(pin, n, b)`, `listFiles(pin)` responds 200 with a file list containing
`{name: n, size: length of b}`; and when the request path `/api/files/<pin>/<n>` has no
`..` element and `n` is not `index.html`, `downloadFile(pin, n)` serves exactly the
bytes `b`. -/
theorem C2_roundtrip (fs : FS) (storagePath pin n : Str) (b : Bytes) (hpin : isSegment pin)
    (hn : isPlainName n)
    (h : (uploadFile fs storagePath pin (.ok ⟨n, b⟩)).2.status = 200) :
    (∃ items, (listFiles (uploadFile fs storagePath pin (.ok ⟨n, b⟩)).1 storagePath pin).2 =
        ⟨200, Body.jsonFiles (JValue.array items)⟩ ∧ (⟨n, b.length⟩ : FileInfo) ∈ items) ∧
    (containsDotDot (downloadURL pin n) = false → n ≠ "index.html".data →
      downloadFile (uploadFile fs storagePath pin (.ok ⟨n, b⟩)).1 storagePath pin n =
        ⟨200, Body.fileContent b⟩) := by
  obtain ⟨hdir, hfs, hpp, hpe⟩ := uploadFile_ok fs storagePath pin n b hpin.1 hn h
  rw [hfs]
  have hD : lookup (resolve fs.cwd (Join [storagePath, pin]))
      (bind (n :: resolve fs.cwd (Join [storagePath, pin])) (Node.file b)
        (ensureDir fs (Join [storagePath, pin])).nodes) = some Node.dir := by
    rw [lookup_bind, if_neg (fun e => cons_ne_self n _ e.symm)]
    exact hdir
  constructor
  · rw [listFiles_of_dir _ _ _ hpin.1 hpp hD]
    simp only [entriesOf_bind_child, collectFileInfos_none]
    have hmem : (⟨n, b.length⟩ : FileInfo) ∈ List.filterMap infoOf
        ((entryOf n (Node.file b) :: List.filter (fun e => decide (e.Name ≠ n))
          (entriesOf (ensureDir fs (Join [storagePath, pin])).nodes
            (resolve fs.cwd (Join [storagePath, pin])))).insertionSort entryLE) := by
      rw [List.mem_filterMap]
      refine ⟨entryOf n (Node.file b), ?_, infoOf_entryOf_file n b⟩
      rw [(List.perm_insertionSort entryLE _).mem_iff]
      simp
    refine ⟨_, ?_, hmem⟩
    rw [if_neg (List.ne_nil_of_mem hmem)]
    rfl
  · intro hurl hidx
    have hT := resolve_downloadPath_plain fs.cwd storagePath pin n hpin hn
    have hl : lookup (n :: resolve fs.cwd (Join [storagePath, pin]))
        (bind (n :: resolve fs.cwd (Join [storagePath, pin])) (Node.file b)
          (ensureDir fs (Join [storagePath, pin])).nodes) = some (Node.file b) := by
      rw [lookup_bind]; simp
    have hstat : Stat (FS.mk fs.cwd
        (bind (n :: resolve fs.cwd (Join [storagePath, pin])) (Node.file b)
          (ensureDir fs (Join [storagePath, pin])).nodes)) (Join [storagePath, pin, n]) =
        .ok (Node.file b) := by
      simp [Stat, statAbs, hT, hl, hpe]
    simp [downloadFile, hstat, ServeFile, hurl, not_index_suffix pin n hn.1.2 hidx]

/-- Witness of C2, amended: the round trip of the specification, `report.txt` with
content `hello` under PIN `123456`, listed with size 5 and downloaded byte for byte. -/
theorem C2_roundtrip_witness :
    isSegment "123456".data ∧ isPlainName "report.txt".data ∧
    (uploadFile startFS "./storage".data "123456".data
      (.ok ⟨"report.txt".data, [104, 101, 108, 108, 111]⟩)).2.status = 200 ∧
    (∃ items, (listFiles (uploadFile startFS "./storage".data "123456".data
        (.ok ⟨"report.txt".data, [104, 101, 108, 108, 111]⟩)).1 "./storage".data
        "123456".data).2 = ⟨200, Body.jsonFiles (JValue.array items)⟩ ∧
      (⟨"report.txt".data, 5⟩ : FileInfo) ∈ items) ∧
    downloadFile (uploadFile startFS "./storage".data "123456".data
      (.ok ⟨"report.txt".data, [104, 101, 108, 108, 111]⟩)).1 "./storage".data "123456".data
      "report.txt".data = ⟨200, Body.fileContent [104, 101, 108, 108, 111]⟩ :=
  ⟨by decide, by decide, by decide,
    (C2_roundtrip startFS "./storage".data "123456".data "report.txt".data
      [104, 101, 108, 108, 111] (by decide) (by decide) (by decide)).1,
    (C2_roundtrip startFS "./storage".data "123456".data "report.txt".data
      [104, 101, 108, 108, 111] (by decide) (by decide) (by decide)).2 (by decide) (by decide)⟩

/-- Counterexample to C2 as stated.  Under PIN `123456` the plain file name `index.html`
with content `hello` is uploaded successfully (200) and listed with size 5, but
`downloadFile` does not serve the bytes: the request path ends in `/index.html`, which
`http.ServeFile` answers with a 301 redirect to `./`.  Under the PIN `..` the plain file
name `report.txt` is uploaded successfully, but the request path of the download has a
`..` element, which `http.ServeFile` rejects with 400. -/
theorem C2_counterexample :
    isSegment "123456".data ∧ isPlainName "index.html".data ∧
    (uploadFile startFS "./storage".data "123456".data
      (.ok ⟨"index.html".data, [104, 101, 108, 108, 111]⟩)).2.status = 200 ∧
    (listFiles (uploadFile startFS "./storage".data "123456".data
      (.ok ⟨"index.html".data, [104, 101, 108, 108, 111]⟩)).1 "./storage".data "123456".data).2
      = ⟨200, Body.jsonFiles (JValue.array [⟨"index.html".data, 5⟩])⟩ ∧
    downloadFile (uploadFile startFS "./storage".data "123456".data
      (.ok ⟨"index.html".data, [104, 101, 108, 108, 111]⟩)).1 "./storage".data "123456".data
      "index.html".data = ⟨301, Body.redirect "./".data⟩ ∧
    isSegment "..".data ∧ isPlainName "report.txt".data ∧
    (uploadFile startFS "./storage".data "..".data
      (.ok ⟨"report.txt".data, [104, 101, 108, 108, 111]⟩)).2.status = 200 ∧
    downloadFile (uploadFile startFS "./storage".data "..".data
      (.ok ⟨"report.txt".data, [104, 101, 108, 108, 111]⟩)).1 "./storage".data "..".data
      "report.txt".data = ⟨400, Body.text "invalid URL path".data⟩ := by
  decide

/-- C3.  Last writer wins: after two successful uploads of the same plain file name under
the same PIN, with contents `b1` then `b2`, the listing of the PIN is a 200 response
whose file list has exactly one entry of that name, of size the length of `b2`; every
other entry of the PIN directory is bound as before the two uploads. -/
theorem C3_last_writer_wins (fs : FS) (storagePath pin n : Str) (b1 b2 : Bytes)
    (hpin : isSegment pin) (hn : isPlainName n)
    (h1 : (uploadFile fs storagePath pin (.ok ⟨n, b1⟩)).2.status = 200)
    (h2 : (uploadFile (uploadFile fs storagePath pin (.ok ⟨n, b1⟩)).1 storagePath pin
      (.ok ⟨n, b2⟩)).2.status = 200) :
    (∃ items,
      (listFiles (uploadFile (uploadFile fs storagePath pin (.ok ⟨n, b1⟩)).1 storagePath pin
        (.ok ⟨n, b2⟩)).1 storagePath pin).2 = ⟨200, Body.jsonFiles (JValue.array items)⟩ ∧
      items.filter (fun i => decide (i.Name = n)) = [⟨n, b2.length⟩]) ∧
    ∀ x : Str, x ≠ n →
      (uploadFile (uploadFile fs storagePath pin (.ok ⟨n, b1⟩)).1 storagePath pin
        (.ok ⟨n, b2⟩)).1.get (x :: resolve fs.cwd (Join [storagePath, pin])) =
      fs.get (x :: resolve fs.cwd (Join [storagePath, pin])) := by
  obtain ⟨hdir1, hfs1, hpp, _⟩ := uploadFile_ok fs storagePath pin n b1 hpin.1 hn h1
  obtain ⟨hdir2, hfs2, _, _⟩ := uploadFile_ok _ storagePath pin n b2 hpin.1 hn h2
  rw [hfs1] at hdir2 hfs2
  simp only at hdir2 hfs2
  rw [hfs1, hfs2]
  generalize hD : resolve fs.cwd (Join [storagePath, pin]) = D at *
  generalize hm1 : (ensureDir fs (Join [storagePath, pin])).nodes = m1 at *
  have hDA : lookup D (bind (n :: D) (Node.file b1) m1) = some Node.dir := by
    rw [lookup_bind, if_neg (fun e => cons_ne_self n _ e.symm)]
    exact hdir1
  have hens : ensureDir (FS.mk fs.cwd (bind (n :: D) (Node.file b1) m1))
      (Join [storagePath, pin]) = FS.mk fs.cwd (bind (n :: D) (Node.file b1) m1) :=
    ensureDir_of_exists _ _ Node.dir (Join2_ne_nil storagePath pin hpin.1)
      (by simpa [hD] using hDA)
  rw [hens]
  simp only
  have hDB : lookup D (bind (n :: D) (Node.file b2) (bind (n :: D) (Node.file b1) m1)) =
      some Node.dir := by
    rw [lookup_bind, if_neg (fun e => cons_ne_self n _ e.symm)]
    exact hDA
  constructor
  · rw [listFiles_of_dir _ _ _ hpin.1 hpp (by simpa [hD] using hDB)]
    simp only [hD, entriesOf_bind_child, collectFileInfos_none]
    generalize hrest : List.filter (fun e => decide (e.Name ≠ n))
      (entryOf n (Node.file b1) :: List.filter (fun e => decide (e.Name ≠ n))
        (entriesOf m1 D)) = rest
    have hrestn : ∀ e ∈ rest, e.Name ≠ n := by
      intro e he
      rw [← hrest] at he
      simpa using (List.mem_filter.1 he).2
    have hperm : List.Perm (List.filterMap infoOf
        ((entryOf n (Node.file b2) :: rest).insertionSort entryLE))
        ((⟨n, b2.length⟩ : FileInfo) :: List.filterMap infoOf rest) := by
      have := (List.perm_insertionSort entryLE (entryOf n (Node.file b2) :: rest)).filterMap infoOf
      simpa [List.filterMap_cons, infoOf_entryOf_file] using this
    have hne : List.filterMap infoOf
        ((entryOf n (Node.file b2) :: rest).insertionSort entryLE) ≠ [] := by
      intro h0
      rw [h0] at hperm
      simpa using hperm.length_eq
    refine ⟨_, by rw [if_neg hne]; rfl, ?_⟩
    have hf := hperm.filter (fun i => decide (i.Name = n))
    have htail : List.filter (fun i : FileInfo => decide (i.Name = n))
        (List.filterMap infoOf rest) = [] := by
      rw [List.filter_eq_nil_iff]
      intro i hi
      obtain ⟨e, he, hie⟩ := List.mem_filterMap.1 hi
      have := infoOf_name e i hie
      simp [this, hrestn e he]
    rw [List.filter_cons, htail] at hf
    simpa using hf
  · intro x hx
    have hne : x :: D ≠ n :: D := fun e => hx (List.cons.inj e).1
    simp only [FS.get, lookup_bind, if_neg hne]
    rw [← hm1]
    exact ensureDir_frame fs _ _ (by rw [hD]; simp)

/-- Witness of C3: `report.txt` uploaded twice under PIN `123456` from the start state,
with `hello` and then `hi`, while the PIN directory already holds `other.txt`. -/
theorem C3_last_writer_wins_witness :
    isSegment "123456".data ∧ isPlainName "report.txt".data ∧
    (∃ items,
      (listFiles (uploadFile (uploadFile
        (uploadFile startFS "./storage".data "123456".data (.ok ⟨"other.txt".data, [1]⟩)).1
        "./storage".data "123456".data (.ok ⟨"report.txt".data, [104, 101, 108, 108, 111]⟩)).1
        "./storage".data "123456".data (.ok ⟨"report.txt".data, [104, 105]⟩)).1
        "./storage".data "123456".data).2 = ⟨200, Body.jsonFiles (JValue.array items)⟩ ∧
      items.filter (fun i => decide (i.Name = "report.txt".data)) =
        [⟨"report.txt".data, 2⟩]) :=
  ⟨by decide, by decide,
    (C3_last_writer_wins
      (uploadFile startFS "./storage".data "123456".data (.ok ⟨"other.txt".data, [1]⟩)).1
      "./storage".data "123456".data "report.txt".data [104, 101, 108, 108, 111] [104, 105]
      (by decide) (by decide) (by decide) (by decide)).1⟩

/-- C4, amended.  `downloadFile` responds 404 with the JSON body
`{"error":"File not found"}` exactly when `os.Stat` reports that the joined path
`filepath.Join(storagePath, pin, filename)` does not exist; it then serves no file
content.  When the path exists, also as a directory (as for `.` and `..`), the request
is handed to the file server. -/
theorem C4_download_not_found_iff (fs : FS) (storagePath pin filename : Str) :
    (downloadFile fs storagePath pin filename = ⟨404, Body.jsonError "File not found".data⟩ ↔
      notExist fs (Join [storagePath, pin, filename]) = true) ∧
    (notExist fs (Join [storagePath, pin, filename]) = false →
      downloadFile fs storagePath pin filename =
        ServeFile fs (downloadURL pin filename) (Join [storagePath, pin, filename])) := by
  simp only [downloadFile, notExist]
  cases hs : Stat fs (Join [storagePath, pin, filename]) with
  | ok v =>
    simp only
    exact ⟨⟨fun h => absurd h (ServeFile_not_jsonError _ _ _ _ _), fun h => by cases h⟩,
      by simp⟩
  | error err =>
    simp only
    cases hn : IsNotExist err with
    | true => simp
    | false =>
      simp only [Bool.false_eq_true, if_false]
      exact ⟨⟨fun h => absurd h (ServeFile_not_jsonError _ _ _ _ _), fun h => by cases h⟩,
        by simp⟩

/-- Counterexample to C4 as stated.  From the start state, after the single request
`GET /api/files/123456` (no upload was ever made), the download of the file name `.`
under PIN `123456` is not answered 404 with `{"error":"File not found"}`: the joined
path `storage/123456` is the PIN directory, which exists, so `os.Stat` succeeds and the
request goes to the file server. -/
theorem C4_counterexample :
    ([Request.list "123456".data].all (fun r => !uploadsAs "123456".data ".".data r)) = true ∧
    isSegment "123456".data ∧ isSegment ".".data ∧
    Join ["./storage".data, "123456".data, ".".data] = "storage/123456".data ∧
    Stat ([Request.list "123456".data].foldl (serve "./storage".data) startFS)
      (Join ["./storage".data, "123456".data, ".".data]) = .ok Node.dir ∧
    downloadFile ([Request.list "123456".data].foldl (serve "./storage".data) startFS)
      "./storage".data "123456".data ".".data ≠ ⟨404, Body.jsonError "File not found".data⟩ ∧
    (downloadFile ([Request.list "123456".data].foldl (serve "./storage".data) startFS)
      "./storage".data "123456".data ".".data).status ≠ 404 := by
  decide

/-- C5, amended.  For every PIN (any path segment) whose directory `os.Stat` reports
missing (the error satisfies `os.IsNotExist`), in a well-formed state whose storage
root is a directory, `listFiles` responds 200 with a `files` member that has no entry
(the value `null` or the empty array), afterwards the PIN directory
`filepath.Join(storagePath, pin)` exists as a directory, and every other absolute path
is bound as before (the working directory is unchanged too). -/
theorem C5_list_missing_pin (fs : FS) (storagePath pin : Str) (hwf : fs.WellFormed)
    (hroot : Stat fs storagePath = .ok Node.dir) (hpin : isSegment pin)
    (hmiss : notExist fs (Join [storagePath, pin]) = true) :
    (∃ files, (listFiles fs storagePath pin).2 = ⟨200, Body.jsonFiles files⟩ ∧
      (files = JValue.null ∨ files = JValue.array [])) ∧
    Stat (listFiles fs storagePath pin).1 (Join [storagePath, pin]) = .ok Node.dir ∧
    (listFiles fs storagePath pin).1.cwd = fs.cwd ∧
    ∀ q : AbsPath, q ≠ resolve fs.cwd (Join [storagePath, pin]) →
      (listFiles fs storagePath pin).1.get q = fs.get q := by
  obtain ⟨hD, hnone, hens, hpe, _⟩ := ensureDir_missing fs storagePath pin hwf hroot hpin hmiss
  have hent : entriesOf (bind (pin :: resolve fs.cwd storagePath) Node.dir fs.nodes)
      (pin :: resolve fs.cwd storagePath) = [] := by
    rw [entriesOf_bind_other _ _ _ _ (childName_self _)]
    exact entriesOf_of_missing fs hwf _ hnone
  have hl : lookup (pin :: resolve fs.cwd storagePath)
      (bind (pin :: resolve fs.cwd storagePath) Node.dir fs.nodes) = some Node.dir := by
    rw [lookup_bind]; simp
  refine ⟨⟨marshalSlice none, ?_, Or.inl rfl⟩, ?_, ?_, ?_⟩
  · simp [listFiles, hens, listResponse, ReadDir, hD, readDirAbs_of_dir _ _ hl, hent,
      collectFileInfos, hpe]
  · simp [listFiles, hens, Stat, statAbs, hD, hl, hpe]
  · simp [listFiles, hens]
  · intro q hq
    rw [hD] at hq
    simp [listFiles, hens, FS.get, lookup_bind, hq]

/-- Witness of C5, amended: PIN `123456` from the start state. -/
theorem C5_list_missing_pin_witness :
    startFS.WellFormed ∧ Stat startFS "./storage".data = .ok Node.dir ∧
    isSegment "123456".data ∧
    notExist startFS (Join ["./storage".data, "123456".data]) = true ∧
    (∃ files, (listFiles startFS "./storage".data "123456".data).2 =
      ⟨200, Body.jsonFiles files⟩ ∧ (files = JValue.null ∨ files = JValue.array [])) ∧
    Stat (listFiles startFS "./storage".data "123456".data).1
      (Join ["./storage".data, "123456".data]) = .ok Node.dir :=
  ⟨by decide, by decide, by decide, by decide,
    (C5_list_missing_pin startFS "./storage".data "123456".data (by decide) (by decide)
      (by decide) (by decide)).1,
    (C5_list_missing_pin startFS "./storage".data "123456".data (by decide) (by decide)
      (by decide) (by decide)).2.1⟩

set_option maxRecDepth 100000 in
/-- Counterexample to C5 as stated.  From the start state, the PIN of 256 letters `a` is a
path segment whose directory does not exist: nothing is bound at
`storage/aaa...a`.  `os.Stat` fails on it with `ENAMETOOLONG`, of which `os.IsNotExist`
does not hold, so `os.MkdirAll` is not called; `os.ReadDir` fails, `listFiles` responds
500 and the state is as before: the PIN directory still does not exist. -/
theorem C5_counterexample :
    isSegment (List.replicate 256 'a') ∧
    startFS.WellFormed ∧ Stat startFS "./storage".data = .ok Node.dir ∧
    startFS.get (resolve startFS.cwd (Join ["./storage".data, List.replicate 256 'a'])) = none ∧
    Stat startFS (Join ["./storage".data, List.replicate 256 'a']) =
      .error ⟨"stat".data, Join ["./storage".data, List.replicate 256 'a'],
        Errno.ENAMETOOLONG⟩ ∧
    (listFiles startFS "./storage".data (List.replicate 256 'a')).2.status = 500 ∧
    (listFiles startFS "./storage".data (List.replicate 256 'a')).1 = startFS ∧
    Stat (listFiles startFS "./storage".data (List.replicate 256 'a')).1
      (Join ["./storage".data, List.replicate 256 'a']) ≠ .ok Node.dir := by
  decide

/-- C6.  From the start state, `GET /api/files/123456` is answered 200 and the `files`
member of the body is the JSON value `null`, not the empty array: the slice
`fileInfos` is still nil when it is encoded. -/
theorem C6_empty_list_is_null :
    (listFiles startFS "./storage".data "123456".data).2 = ⟨200, Body.jsonFiles JValue.null⟩ ∧
    (listFiles startFS "./storage".data "123456".data).2 ≠
      ⟨200, Body.jsonFiles (JValue.array [])⟩ := by
  decide

/-- C7.  The status of `uploadFile` is determined by its failure mode.  It is 400, with
the error of `c.FormFile` as JSON error body, exactly when the request carries no
readable field `file`; it is 500, with the error of the save as JSON error body, exactly
when the field is present and saving to the target path fails; it is 200, with the
message `File <base name> uploaded successfully`, exactly when the field is present and
the save succeeds.  No other status is produced. -/
theorem C7_upload_status (fs : FS) (storagePath pin : Str) (formFile : Except Str FileHeader) :
    ((uploadFile fs storagePath pin formFile).2.status = 400 ↔ ∃ err, formFile = .error err) ∧
    ((uploadFile fs storagePath pin formFile).2.status = 500 ↔
      ∃ file err, formFile = .ok file ∧
        SaveUploadedFile (ensureDir fs (Join [storagePath, pin])) file
          (uploadTarget storagePath pin file.Filename) = .error err) ∧
    ((uploadFile fs storagePath pin formFile).2.status = 200 ↔
      ∃ file fs2, formFile = .ok file ∧
        SaveUploadedFile (ensureDir fs (Join [storagePath, pin])) file
          (uploadTarget storagePath pin file.Filename) = .ok fs2) ∧
    ((uploadFile fs storagePath pin formFile).2.status = 400 ∨
      (uploadFile fs storagePath pin formFile).2.status = 500 ∨
      (uploadFile fs storagePath pin formFile).2.status = 200) ∧
    (∀ err, formFile = .error err →
      (uploadFile fs storagePath pin formFile).2.body = Body.jsonError err) ∧
    (∀ file err, formFile = .ok file →
      SaveUploadedFile (ensureDir fs (Join [storagePath, pin])) file
        (uploadTarget storagePath pin file.Filename) = .error err →
      (uploadFile fs storagePath pin formFile).2.body = Body.jsonError err.Error) ∧
    (∀ file fs2, formFile = .ok file →
      SaveUploadedFile (ensureDir fs (Join [storagePath, pin])) file
        (uploadTarget storagePath pin file.Filename) = .ok fs2 →
      (uploadFile fs storagePath pin formFile).2.body =
        Body.jsonMessage ("File ".data ++ Base file.Filename ++
          " uploaded successfully".data)) := by
  cases formFile with
  | error e => simp [uploadFile]
  | ok file =>
    unfold uploadFile uploadTarget
    simp only
    cases hsave : SaveUploadedFile (ensureDir fs (Join [storagePath, pin])) file
        (Join [Join [storagePath, pin], Base file.Filename]) with
    | error err =>
      refine ⟨by simp, ⟨fun _ => ⟨file, err, rfl, hsave⟩, fun _ => rfl⟩, ⟨fun h => by simp at h, ?_⟩,
        by simp, by simp, ?_, ?_⟩
      · rintro ⟨f, fs2, hf, hs⟩
        cases hf
        rw [hsave] at hs
        cases hs
      · intro f e hf hs
        cases hf
        rw [hsave] at hs
        cases hs
        rfl
      · intro f fs2 hf hs
        cases hf
        rw [hsave] at hs
        cases hs
    | ok fs2 =>
      refine ⟨by simp, ⟨fun h => by simp at h, ?_⟩, ⟨fun _ => ⟨file, fs2, rfl, hsave⟩, fun _ => rfl⟩,
        by simp, by simp, ?_, ?_⟩
      · rintro ⟨f, e, hf, hs⟩
        cases hf
        rw [hsave] at hs
        cases hs
      · intro f e hf hs
        cases hf
        rw [hsave] at hs
        cases hs
      · intro f fs3 hf hs
        cases hf
        rfl

/-- C8, amended.  For every storage root, every working directory and every PIN that is
a plain name (a non-empty segment without separator other than `.` and `..`), the PIN
directory `filepath.Join(storagePath, pin)` is the entry named `pin` of the storage
root: a direct subdirectory, never the storage root itself or a path outside it. -/
theorem C8_pin_dir_is_child (cwd : AbsPath) (storagePath pin : Str) (hpin : isPlainName pin) :
    resolve cwd (Join [storagePath, pin]) = pin :: resolve cwd storagePath ∧
    isDirectChild (resolve cwd storagePath) (resolve cwd (Join [storagePath, pin])) := by
  have h : resolve cwd (Join [storagePath, pin]) = pin :: resolve cwd storagePath := by
    rw [resolve_Join2 cwd _ pin hpin.1.1 hpin.1.2,
      resolveStep_plain _ pin hpin.1.1 hpin.2.1 hpin.2.2]
  refine ⟨h, ?_⟩
  rw [h]
  exact ⟨by simp, rfl⟩

/-- Witness of C8, amended: PIN `123456` under `./storage`. -/
theorem C8_pin_dir_is_child_witness :
    isPlainName "123456".data ∧
    resolve startFS.cwd (Join ["./storage".data, "123456".data]) =
      "123456".data :: resolve startFS.cwd "./storage".data :=
  ⟨by decide, (C8_pin_dir_is_child startFS.cwd "./storage".data "123456".data (by decide)).1⟩

/-- Counterexample to C8 as stated.  With storage root `./storage`, the PIN `..` (a
non-empty segment without separator) gives the PIN directory `.`, the parent of the
storage root, and the PIN `.` gives `storage`, the storage root itself: neither is an
entry of the storage root. -/
theorem C8_counterexample :
    isSegment "..".data ∧ isSegment ".".data ∧
    Join ["./storage".data, "..".data] = ".".data ∧
    Join ["./storage".data, ".".data] = "storage".data ∧
    ¬ isDirectChild (resolve startFS.cwd "./storage".data)
      (resolve startFS.cwd (Join ["./storage".data, "..".data])) ∧
    ¬ isDirectChild (resolve startFS.cwd "./storage".data)
      (resolve startFS.cwd (Join ["./storage".data, ".".data])) := by
  decide

/-- C9, amended.  The response of `listFiles` is a function of the outcome of
`os.ReadDir` on the PIN directory.  It is 500 exactly when `os.ReadDir` fails, and the
body is then `{"error": <the raw error string>}`.  When `os.ReadDir` succeeds it is
200, also if `Info()` fails on entries: such an entry is skipped, like a directory,
and the file list holds the name and size of every other entry, in order (it is the
nil slice when there is none). -/
theorem C9_list_status (fs : FS) (storagePath pin : Str)
    (readDir : Except PathError (List DirEntry)) :
    (listFiles fs storagePath pin).2 =
      listResponse (ReadDir (ensureDir fs (Join [storagePath, pin]))
        (Join [storagePath, pin])) ∧
    ((listResponse readDir).status = 500 ↔ ∃ err, readDir = .error err) ∧
    ((listResponse readDir).status = 200 ↔ ∃ files, readDir = .ok files) ∧
    (∀ err, readDir = .error err → listResponse readDir = ⟨500, Body.jsonError err.Error⟩) ∧
    (∀ files, readDir = .ok files → listResponse readDir =
      ⟨200, Body.jsonFiles (marshalSlice
        (if files.filterMap infoOf = [] then none else some (files.filterMap infoOf)))⟩) := by
  refine ⟨rfl, ?_⟩
  cases readDir with
  | error err => simp [listResponse]
  | ok files => simp [listResponse, collectFileInfos_none]

/-- Counterexample to C9 as stated.  `os.ReadDir` succeeds with one entry `a.txt`, a
regular file whose `Info()` fails (the file was removed in between): a read failed,
and yet `listFiles` responds 200, with the nil file list. -/
theorem C9_counterexample :
    someReadFails (.ok [⟨"a.txt".data, false,
      .error "lstat storage/123456/a.txt: no such file or directory".data⟩]) = true ∧
    listResponse (.ok [⟨"a.txt".data, false,
      .error "lstat storage/123456/a.txt: no such file or directory".data⟩]) =
      ⟨200, Body.jsonFiles JValue.null⟩ := by
  decide

/-- C10, amended.  For every PIN (any path segment) whose directory `os.Stat` reports
missing (the error satisfies `os.IsNotExist`), in a well-formed state whose storage
root is a directory, an upload request without a readable `file` field is answered 400
with the error of `c.FormFile`, and yet the PIN directory exists afterwards; every
other absolute path is bound as before, so no file was stored. -/
theorem C10_rejected_upload_creates_dir (fs : FS) (storagePath pin : Str) (err : Str)
    (hwf : fs.WellFormed) (hroot : Stat fs storagePath = .ok Node.dir) (hpin : isSegment pin)
    (hmiss : notExist fs (Join [storagePath, pin]) = true) :
    (uploadFile fs storagePath pin (.error err)).2 = ⟨400, Body.jsonError err⟩ ∧
    Stat (uploadFile fs storagePath pin (.error err)).1 (Join [storagePath, pin]) =
      .ok Node.dir ∧
    (uploadFile fs storagePath pin (.error err)).1.cwd = fs.cwd ∧
    ∀ q : AbsPath, q ≠ resolve fs.cwd (Join [storagePath, pin]) →
      (uploadFile fs storagePath pin (.error err)).1.get q = fs.get q := by
  obtain ⟨hD, _, hens, hpe, _⟩ := ensureDir_missing fs storagePath pin hwf hroot hpin hmiss
  have hl : lookup (pin :: resolve fs.cwd storagePath)
      (bind (pin :: resolve fs.cwd storagePath) Node.dir fs.nodes) = some Node.dir := by
    rw [lookup_bind]; simp
  refine ⟨?_, ?_, ?_, ?_⟩
  · simp [uploadFile]
  · simp [uploadFile, hens, Stat, statAbs, hD, hl, hpe]
  · simp [uploadFile, hens]
  · intro q hq
    rw [hD] at hq
    simp [uploadFile, hens, FS.get, lookup_bind, hq]

/-- Witness of C10, amended: an upload without `file` field under PIN `123456` from the
start state. -/
theorem C10_rejected_upload_creates_dir_witness :
    startFS.WellFormed ∧ Stat startFS "./storage".data = .ok Node.dir ∧
    isSegment "123456".data ∧
    notExist startFS (Join ["./storage".data, "123456".data]) = true ∧
    (uploadFile startFS "./storage".data "123456".data
      (.error "http: no such file".data)).2 = ⟨400, Body.jsonError "http: no such file".data⟩ ∧
    Stat (uploadFile startFS "./storage".data "123456".data
      (.error "http: no such file".data)).1 (Join ["./storage".data, "123456".data]) =
      .ok Node.dir :=
  ⟨by decide, by decide, by decide, by decide,
    (C10_rejected_upload_creates_dir startFS "./storage".data "123456".data
      "http: no such file".data (by decide) (by decide) (by decide) (by decide)).1,
    (C10_rejected_upload_creates_dir startFS "./storage".data "123456".data
      "http: no such file".data (by decide) (by decide) (by decide) (by decide)).2.1⟩

set_option maxRecDepth 100000 in
/-- Counterexample to C10 as stated.  From the start state, the PIN of 256 letters `a` is
a path segment whose directory does not exist.  An upload under it without a readable
`file` field is answered 400 and stores no file, but the PIN directory does not exist
afterwards: `os.Stat` failed with `ENAMETOOLONG`, `os.MkdirAll` was not called and the
state is as before. -/
theorem C10_counterexample :
    isSegment (List.replicate 256 'a') ∧
    startFS.WellFormed ∧ Stat startFS "./storage".data = .ok Node.dir ∧
    startFS.get (resolve startFS.cwd (Join ["./storage".data, List.replicate 256 'a'])) = none ∧
    (uploadFile startFS "./storage".data (List.replicate 256 'a')
      (.error "http: no such file".data)).2 = ⟨400, Body.jsonError "http: no such file".data⟩ ∧
    (uploadFile startFS "./storage".data (List.replicate 256 'a')
      (.error "http: no such file".data)).1 = startFS ∧
    Stat (uploadFile startFS "./storage".data (List.replicate 256 'a')
      (.error "http: no such file".data)).1
      (Join ["./storage".data, List.replicate 256 'a']) ≠ .ok Node.dir ∧
    (uploadFile startFS "./storage".data (List.replicate 256 'a')
      (.error "http: no such file".data)).1.get
      (resolve startFS.cwd (Join ["./storage".data, List.replicate 256 'a'])) = none := by
  decide

end GoFile
